import Mathlib

set_option maxHeartbeats 1000000
set_option maxRecDepth 4000

/-!
Verification development for the `bullet_stream` library.

The definitions below are shallow embeddings of the Rust sources:
bytes are modelled as `Nat` (newline is byte 10), byte sinks as `List Nat`,
text sinks as `List Char`, and each Rust function is translated into a pure
Lean function over that state.  Stateful writers become explicit
state-passing; panics become explicit outcome values.
-/

namespace BulletStream

/-! Paragraph tracking sink: `src/util.rs`, `ParagraphInspectWrite`. -/

def newlineByte : Nat := 10

/-- State of `ParagraphInspectWrite<W>` together with the bytes the inner sink received. -/
structure ParagraphInspectWrite where
  inner : List Nat
  newlines_since_last_char : Nat
  was_paragraph : Bool
deriving Repr, DecidableEq

/-- Construction `ParagraphInspectWrite::new` over a fresh (empty) inner sink. -/
def ParagraphInspectWrite.new : ParagraphInspectWrite :=
  { inner := [], newlines_since_last_char := 0, was_paragraph := false }

/-- Count of trailing newline bytes: `buf.iter().rev().take_while(|&&c| c == b'\n').count()`. -/
def trailing_newline_count (buf : List Nat) : Nat :=
  (buf.reverse.takeWhile (fun c => c == newlineByte)).length

/-- One `write` call of `ParagraphInspectWrite` (`src/util.rs` lines 108-119). -/
def ParagraphInspectWrite.write (st : ParagraphInspectWrite) (buf : List Nat) :
    ParagraphInspectWrite :=
  let t := trailing_newline_count buf
  let n := if buf.length = t then st.newlines_since_last_char + t else t
  { inner := st.inner ++ buf, newlines_since_last_char := n, was_paragraph := decide (n > 1) }

/-- Replaying a sequence of chunks through `write` one at a time. -/
def writeChunks (st : ParagraphInspectWrite) (chunks : List (List Nat)) :
    ParagraphInspectWrite :=
  chunks.foldl ParagraphInspectWrite.write st

/-! Line mapping sink: `src/write.rs`, `MappedWrite`. -/

/-- State of `MappedWrite<W>`: the accumulation buffer and the bytes already
forwarded to the inner sink.  The marker byte and the mapping function are
passed as parameters to the operations. -/
structure MappedWrite where
  buffer : List Nat
  forwarded : List Nat
deriving Repr, DecidableEq

/-- A freshly constructed `MappedWrite` (`MappedWrite::new`). -/
def MappedWrite.new : MappedWrite := { buffer := [], forwarded := [] }

/-- The `map_and_write_current_buffer` helper: applies the mapping function to the
buffer, forwards the result to the inner sink and clears the buffer. -/
def map_and_write_current_buffer (f : List Nat → List Nat) (m : MappedWrite) : MappedWrite :=
  { buffer := [], forwarded := m.forwarded ++ f m.buffer }

/-- Processing of a single byte inside `MappedWrite::write`'s loop: push the byte,
and when it equals the marker byte, map and forward the buffer. -/
def MappedWrite.writeByte (marker : Nat) (f : List Nat → List Nat) (m : MappedWrite)
    (b : Nat) : MappedWrite :=
  let m1 : MappedWrite := { buffer := m.buffer ++ [b], forwarded := m.forwarded }
  if b = marker then map_and_write_current_buffer f m1 else m1

/-- One `MappedWrite::write` call over a byte buffer (`src/write.rs` lines 347-357). -/
def MappedWrite.write (marker : Nat) (f : List Nat → List Nat) (m : MappedWrite)
    (buf : List Nat) : MappedWrite :=
  buf.foldl (MappedWrite.writeByte marker f) m

/-- A sequence of `write` calls. -/
def MappedWrite.writeChunks (marker : Nat) (f : List Nat → List Nat) (m : MappedWrite)
    (chunks : List (List Nat)) : MappedWrite :=
  chunks.foldl (MappedWrite.write marker f) m

/-- `MappedWrite::unwrap` (`src/write.rs` lines 322-336): maps and forwards the
current buffer (unconditionally, since `inner` is present), then releases the
inner sink.  The value returned here is the full byte stream the inner sink
received.  `Drop` performs the same final `map_and_write_current_buffer`. -/
def MappedWrite.unwrapForwarded (f : List Nat → List Nat) (m : MappedWrite) : List Nat :=
  (map_and_write_current_buffer f m).forwarded

/-- Record splitting of a byte string at a marker byte: folds bytes into the
current record and emits the record (marker included) at each marker. -/
def splitRecordsStep (marker : Nat) (acc : List (List Nat) × List Nat) (b : Nat) :
    List (List Nat) × List Nat :=
  if b = marker then (acc.1 ++ [acc.2 ++ [b]], []) else (acc.1, acc.2 ++ [b])

/-- Complete records and the trailing remainder of a byte string. -/
def splitRecords (marker : Nat) (bs : List Nat) : List (List Nat) × List Nat :=
  bs.foldl (splitRecordsStep marker) ([], [])

/-- Claim C2 as stated by the specification: the transform output reaching the
inner sink on release is one application per complete record, plus one final
application of the remainder only when the remainder is non-empty. -/
def MappedWriteReleaseClaim : Prop :=
  ∀ (marker : Nat) (f : List Nat → List Nat) (chunks : List (List Nat)),
    MappedWrite.unwrapForwarded f (MappedWrite.writeChunks marker f MappedWrite.new chunks)
      = (((splitRecords marker chunks.flatten).1.map f).flatten
          ++ if (splitRecords marker chunks.flatten).2 = [] then []
             else f (splitRecords marker chunks.flatten).2)

/-- Modelled from the spec: the constant `CMD_INDENT` is imported from `style.rs`
in the sources, but its definition is not among the provided files; the spec
fixes streamed-content indentation at six spaces. -/
def CMD_INDENT : List Nat := [32, 32, 32, 32, 32, 32]

/-- The line transform installed by `start_stream` (`src/lib.rs` lines 574-584) and
`format_stream_writer` (`src/util.rs` lines 257-267): blank records (empty, or a
lone newline) pass through unchanged, any other record gets the fixed indent. -/
def start_stream_line_fn (line : List Nat) : List Nat :=
  if line = [] ∨ line = [newlineByte] then line else CMD_INDENT ++ line

/-! Stream multiplexer: `src/util.rs`, `mpsc_stream_to_output`. -/

/-- Return value of the producing closure: either a leaked writer handle
(`MpscWriter`, detected via `TypeId`) or an ordinary value. -/
inductive StreamRet (α : Type) where
  | leakedWriter : StreamRet α
  | value : α → StreamRet α

/-- The mpsc channel, as the ordered queue of messages sent through it. -/
structure Channel where
  queue : List (List Nat)

/-- `MpscWriter::write` sends the buffer as one message (`src/util.rs` lines 194-197). -/
def Channel.send (ch : Channel) (m : List Nat) : Channel :=
  { queue := ch.queue ++ [m] }

/-- Sequential denotation of `mpsc_stream_to_output` (`src/util.rs` lines 225-251):
the producing closure's writes (`streamMsgs`) are sent through the channel; if the
closure's return value is a writer handle the call panics with the diagnostic
message of the `assert_ne!`; otherwise the channel closes and the consumer
(`output`) drains the full queue before the closure's result is returned. -/
def mpsc_stream_to_output {α σ : Type} (streamMsgs : List (List Nat)) (ret : StreamRet α)
    (output : List (List Nat) → σ) : Except String (α × σ) :=
  let ch := streamMsgs.foldl Channel.send { queue := [] }
  match ret with
  | .leakedWriter => .error "The MpscWriter was leaked. This will cause a deadlock."
  | .value a => .ok (a, output ch.queue)

/-! Global sink coordinator: `src/global.rs`, `with_locked_writer`. -/

/-- Generic `ParagraphInspectWrite<W>` wrapper used by the global coordinator. -/
structure PIW (σ : Type) where
  inner : σ
  newlines_since_last_char : Nat
  was_paragraph : Bool

/-- Wrapping construction `ParagraphInspectWrite::new(io)`. -/
def PIW.mk0 {σ : Type} (io : σ) : PIW σ :=
  { inner := io, newlines_since_last_char := 0, was_paragraph := false }

/-- Outcome of running the user closure under `catch_unwind`. -/
inductive BodyResult (π : Type) where
  | normal : BodyResult π
  | panicked : π → BodyResult π

/-- Shallow embedding of `with_locked_writer` (`src/global.rs` lines 172-208).
The global writer slot is passed and returned explicitly; the closure `f`
receives the slot contents and returns the final slot contents together with
its normal/panicked outcome (`catch_unwind`).  The function saves the old
writer, installs the wrapped new writer, runs the closure, restores the old
writer, and either returns the swapped-out writer's inner value or re-raises
the panic (`resume_unwind`). -/
def with_locked_writer {σ π : Type} (slot : PIW σ) (new_writer : σ)
    (f : PIW σ → PIW σ × BodyResult π) : PIW σ × Except π σ :=
  let old_writer := slot
  let r := f (PIW.mk0 new_writer)
  let restored := old_writer
  match r.2 with
  | .normal => (restored, .ok r.1.inner)
  | .panicked p => (restored, .error p)

/-! Text level helpers: `src/util.rs` `prefix_lines` and friends. -/

/-- Whitespace predicate used by `str::trim`. -/
def isWs (c : Char) : Bool := c.isWhitespace

/-- Both-ends whitespace trim, `str::trim`. -/
def trimChars (s : List Char) : List Char :=
  ((s.dropWhile isWs).reverse.dropWhile isWs).reverse

/-- Rust `str::split_inclusive('\n')`: pieces keep their trailing newline, the
empty string yields no pieces. -/
def splitInclusiveNl : List Char → List (List Char)
  | [] => []
  | c :: t =>
    if c = '\n' then ['\n'] :: splitInclusiveNl t
    else
      match splitInclusiveNl t with
      | [] => [[c]]
      | p :: ps => (c :: p) :: ps

/-- `prefix_lines` (`src/util.rs` lines 41-55): prefix each inclusive line with
`f index line`; the empty string still receives `f 0 ""`. -/
def prefix_lines (f : Nat → List Char → List Char) (contents : List Char) : List Char :=
  if contents = [] then f 0 []
  else ((splitInclusiveNl contents).enum.map (fun p => f p.1 p.2 ++ p.2)).flatten

/-- `prefix_first_rest_lines` (`src/util.rs` lines 20-32). -/
def prefix_first_rest_lines (first rest contents : List Char) : List Char :=
  prefix_lines (fun i _ => if i = 0 then first else rest) contents

/-- `write::bullet` (`src/write.rs` lines 77-85), as the content appended to the sink. -/
def bullet (curr : List Char) (s : List Char) : List Char :=
  curr ++ prefix_first_rest_lines "- ".toList "  ".toList (trimChars s) ++ ['\n']

/-- `write::sub_bullet_prefix` (`src/write.rs` lines 97-99). -/
def sub_bullet_prefix_text (s : List Char) : List Char :=
  prefix_first_rest_lines "  - ".toList "    ".toList (trimChars s)

/-- `write::sub_bullet` (`src/write.rs` lines 92-95), as the content appended. -/
def sub_bullet (curr : List Char) (s : List Char) : List Char :=
  curr ++ sub_bullet_prefix_text s ++ ['\n']

/-! ANSI escape wrapper: `src/ansi_escape.rs`. -/

/-- The escape character. -/
def ESC : Char := Char.ofNat 27

/-- The reset sequence `"\x1B[0m"`. -/
def RESET : List Char := [ESC, '[', '0', 'm']

/-- The `ANSI` color enum of `src/ansi_escape.rs`. -/
inductive ANSIColor where
  | dim
  | red
  | yellow
  | boldCyan
  | boldPurple
  | boldUnderlineCyan
deriving DecidableEq, Repr

/-- `ANSI::to_str`, with the color constants of `src/ansi_escape.rs` lines 29-35. -/
def ANSIColor.to_str : ANSIColor → List Char
  | .dim => [ESC, '[', '2', ';', '1', 'm']
  | .red => [ESC, '[', '0', ';', '3', '1', 'm']
  | .yellow => [ESC, '[', '0', ';', '3', '3', 'm']
  | .boldCyan => [ESC, '[', '1', ';', '3', '6', 'm']
  | .boldPurple => [ESC, '[', '1', ';', '3', '5', 'm']
  | .boldUnderlineCyan => [ESC, '[', '1', ';', '4', ';', '3', '6', 'm']

/-- Fueled worker for `str::replace`: replaces non-overlapping occurrences of
`pat` left to right.  The fuel only bounds recursion depth; `listReplace`
supplies enough fuel for the bound never to bind. -/
def listReplaceF : Nat → List Char → List Char → List Char → List Char
  | 0, s, _, _ => s
  | _ + 1, [], _, _ => []
  | fuel + 1, a :: t, pat, rep =>
    if pat ≠ [] ∧ pat.isPrefixOf (a :: t) then
      rep ++ listReplaceF fuel ((a :: t).drop pat.length) pat rep
    else a :: listReplaceF fuel t pat rep

/-- Rust `str::replace(pat, rep)` on character lists (for non-empty patterns). -/
def listReplace (s pat rep : List Char) : List Char :=
  listReplaceF s.length s pat rep

/-- Rust `str::split('\n')` on character lists: the empty string yields one
empty piece. -/
def splitOnNl : List Char → List (List Char)
  | [] => [[]]
  | c :: t =>
    if c = '\n' then [] :: splitOnNl t
    else
      match splitOnNl t with
      | [] => [[c]]
      | p :: ps => (c :: p) :: ps

/-- `Vec::join("\n")` on character lists. -/
def joinNl : List (List Char) → List Char
  | [] => []
  | p :: ps =>
    match ps with
    | [] => p
    | q :: ps2 => p ++ '\n' :: joinNl (q :: ps2)

/-- Per-line processing of `wrap_ansi_escape_each_line`
(`src/ansi_escape.rs` lines 19-24): re-assert the color after each reset, wrap
the line in color/reset, then collapse the redundant doubled color and the
color-immediately-before-reset sequences. -/
def wrapLine (e : List Char) (line : List Char) : List Char :=
  let l1 := listReplace line RESET (RESET ++ e)
  let l2 := e ++ l1 ++ RESET
  let l3 := listReplace l2 (e ++ e) e
  listReplace l3 (e ++ RESET) []

/-- `wrap_ansi_escape_each_line` (`src/ansi_escape.rs` lines 13-27). -/
def wrap_ansi_escape_each_line (a : ANSIColor) (body : List Char) : List Char :=
  joinNl ((splitOnNl body).map (wrapLine a.to_str))

/-- Nested applications of the wrapper, outermost color first. -/
def wrapMany : List ANSIColor → List Char → List Char
  | [], t => t
  | a :: rest, t => wrap_ansi_escape_each_line a (wrapMany rest t)

/-- One step of `strip_ansi`'s scanner state: entering a sequence at ESC,
leaving it at `m`. -/
def stripStep (b : Bool) (c : Char) : Bool :=
  if c = ESC then true
  else if b then (if c = 'm' then false else true)
  else false

/-- Scanner state of `strip_ansi` after consuming a string. -/
def stripState (b : Bool) (s : List Char) : Bool :=
  s.foldl stripStep b

/-- The character emitting scanner of `strip_ansi` (`src/ansi_escape.rs` lines 64-85). -/
def stripGo : Bool → List Char → List Char
  | _, [] => []
  | b, c :: t =>
    if c = ESC then stripGo true t
    else if b then (if c = 'm' then stripGo false t else stripGo true t)
    else c :: stripGo b t

/-- `strip_ansi`. -/
def strip_ansi (s : List Char) : List Char :=
  stripGo false s

/-- Absence of the escape character (the claims' "no ESC" side condition). -/
def EscFree (s : List Char) : Prop := ∀ c ∈ s, c ≠ ESC

/-- Concatenation of a stack of color codes. -/
def catColors (s : List ANSIColor) : List Char :=
  (s.map ANSIColor.to_str).flatten

/-- The invariant shape of a wrapped non-empty line: a stack of color codes,
the original line, one reset. -/
def LineShape (stack : List ANSIColor) (L : List Char) : List Char :=
  catColors stack ++ L ++ RESET

/-- The color stack update of one additional wrap. -/
def pushColor (a : ANSIColor) (stack : List ANSIColor) : List ANSIColor :=
  if stack.head? = some a then stack else a :: stack

/-- Relation between an original line and its rendering after one or more wraps:
an empty line stays empty, a non-empty line carries a non-empty adjacent-distinct
stack of color codes and one trailing reset. -/
def LineRes (orig res : List Char) : Prop :=
  (orig = [] ∧ res = []) ∨
    (orig ≠ [] ∧ ∃ stack, stack ≠ [] ∧ List.Chain' (fun a b => a ≠ b) stack
      ∧ res = LineShape stack orig)

/-! Background timer printer: `src/write.rs` `sub_start_print_interval` plus the
spec model of `background_printer`. -/

/-- Modelled from the spec: `background_printer::print_interval` and `PrintGuard`
(module `background_printer` is declared in `src/lib.rs` but the file is not
among the provided sources).  Per spec section 4.4, the guard owns the sink, the
tick strings and a fallback text; a guard released without an explicit
`done`/`cancel` writes the fallback text to the sink. -/
structure PrintGuard where
  sink : List Char
  interval : Nat
  tick1 : List Char
  tick2 : List Char
  tick3 : List Char
  fallback : List Char

/-- Modelled from the spec: construction of the print guard. -/
def print_interval (w : List Char) (interval : Nat) (t1 t2 t3 fallback : List Char) :
    PrintGuard :=
  { sink := w, interval := interval, tick1 := t1, tick2 := t2, tick3 := t3,
    fallback := fallback }

/-- Modelled from the spec: sink contents after the guard is released without
`done`/`cancel` — the fallback text becomes the trailing content. -/
def PrintGuard.abandon (g : PrintGuard) : List Char :=
  g.sink ++ g.fallback

/-- `write::sub_start_print_interval` (`src/write.rs` lines 192-208): writes the
sub-bullet prefixed label without a trailing newline, then constructs the
interval printer with `"(Error)"` as the fallback text. -/
def sub_start_print_interval (curr : List Char) (s : List Char) : PrintGuard :=
  print_interval (curr ++ sub_bullet_prefix_text s) 1
    (wrap_ansi_escape_each_line ANSIColor.dim " .".toList)
    (wrap_ansi_escape_each_line ANSIColor.dim ".".toList)
    (wrap_ansi_escape_each_line ANSIColor.dim ". ".toList)
    "(Error)".toList

/-! Terminal done: `src/write.rs` `all_done` and `Print::<Bullet>::done`. -/

/-- `write::all_done` (`src/write.rs` lines 210-222).  `duration_format::human` is
not among the provided sources (out of scope per the spec) and is abstracted as
the parameter `human`; instants are modelled as `Nat` with
`elapsed = now - started`. -/
def all_done (human : Nat → List Char) (curr : List Char) (started : Option Nat)
    (now : Nat) : List Char :=
  match started with
  | some t => bullet curr ("Done (finished in ".toList ++ human (now - t) ++ ")".toList)
  | none => bullet curr "Done".toList

/-- The `Print<state::Bullet<W>>` handle: optional start instant and the
paragraph-inspecting writer, whose inner sink holds the content written so far. -/
structure PrintBulletState where
  started : Option Nat
  content : List Char

/-- `Print::<state::Bullet<W>>::done` (`src/lib.rs` lines 441-446): emit the
final line via `all_done`, then yield the raw inner sink back to the caller. -/
def printBulletDone (human : Nat → List Char) (now : Nat) (p : PrintBulletState) :
    List Char :=
  all_done human p.content p.started now

/-! Headers: `src/write.rs` `h2` over the paragraph inspecting writer. -/

/-- Trailing newline run of a character sink's contents.  For a sink built from a
fresh `ParagraphInspectWrite`, `newlines_since_last_char` equals this run and
`was_paragraph` equals `run > 1` (established by the fragmentation lemmas). -/
def trailingNlRun (s : List Char) : Nat :=
  (s.reverse.takeWhile (fun c => c == '\n')).length

/-- The rendered header chunk of `h2`: color-wrapped `"## "` plus trimmed text. -/
def h2X (s : List Char) : List Char :=
  wrap_ansi_escape_each_line ANSIColor.boldPurple ("## ".toList ++ trimChars s)

/-- `write::h2` (`src/write.rs` lines 35-54) over a content-modelled sink: emit a
newline unless the sink ends in a paragraph boundary, write the wrapped header
line, then emit a newline unless the sink now ends in a paragraph boundary. -/
def h2 (curr : List Char) (s : List Char) : List Char :=
  let c1 := if trailingNlRun curr > 1 then curr else curr ++ ['\n']
  let c2 := c1 ++ h2X s ++ ['\n']
  if trailingNlRun c2 > 1 then c2 else c2 ++ ['\n']

/-- A sink content consisting solely of newlines. -/
def onlyNl (s : List Char) : Prop := ∀ c ∈ s, c = '\n'

/-- Exactly one blank line stands at the end of content `d` (the line before a
header rendered immediately after `d` is blank, and only one such line is). -/
def oneBlankBefore (d : List Char) : Prop :=
  (onlyNl d ∧ d.length = 1) ∨ (¬ onlyNl d ∧ trailingNlRun d = 2)

/-- Claim C5 as stated by the specification, for a pair of consecutive `h2`
emissions: the output decomposes around the two rendered headers with exactly
one blank line between them and after the second one, the rendered headers
neither start nor end in a newline, and — unless the sink already ends in a
paragraph boundary — exactly one blank line precedes a header. -/
def headersOneBlankClaim : Prop :=
  ∀ curr s1 s2 : List Char,
    (h2 (h2 curr s1) s2
      = curr ++ (if trailingNlRun curr > 1 then [] else ['\n'])
          ++ h2X s1 ++ ['\n', '\n'] ++ h2X s2 ++ ['\n', '\n'])
    ∧ (h2X s1).head? ≠ some '\n' ∧ (h2X s1).getLast? ≠ some '\n'
    ∧ (h2X s2).head? ≠ some '\n' ∧ (h2X s2).getLast? ≠ some '\n'
    ∧ (¬ trailingNlRun curr > 1 → oneBlankBefore (curr ++ ['\n']))

end BulletStream

namespace BulletStream

/-! Theorems. General take-while and trailing-run lemmas first. -/

theorem takeWhile_append_all {p : Char → Bool} {x : List Char} (y : List Char)
    (h : ∀ a ∈ x, p a = true) : (x ++ y).takeWhile p = x ++ y.takeWhile p := by
  induction x with
  | nil => rfl
  | cons a t ih =>
    have ha : p a = true := h a (by simp)
    simp only [List.cons_append, List.takeWhile_cons, ha, if_true]
    rw [ih (fun b hb => h b (by simp [hb]))]

theorem takeWhile_append_stop {p : Char → Bool} {x : List Char} (y : List Char)
    (h : ¬ ∀ a ∈ x, p a = true) : (x ++ y).takeWhile p = x.takeWhile p := by
  induction x with
  | nil => exact absurd (by simp) h
  | cons a t ih =>
    by_cases ha : p a = true
    · have ht : ¬ ∀ b ∈ t, p b = true := by
        intro hall
        exact h (by intro b hb; rcases List.mem_cons.mp hb with rfl | hb2
                    exacts [ha, hall b hb2])
      simp only [List.cons_append, List.takeWhile_cons, ha, if_true]
      rw [ih ht]
    · rw [List.cons_append, List.takeWhile_cons, List.takeWhile_cons, if_neg ha, if_neg ha]

theorem takeWhileNat_append_all {p : Nat → Bool} {x : List Nat} (y : List Nat)
    (h : ∀ a ∈ x, p a = true) : (x ++ y).takeWhile p = x ++ y.takeWhile p := by
  induction x with
  | nil => rfl
  | cons a t ih =>
    have ha : p a = true := h a (by simp)
    simp only [List.cons_append, List.takeWhile_cons, ha, if_true]
    rw [ih (fun b hb => h b (by simp [hb]))]

theorem takeWhileNat_append_stop {p : Nat → Bool} {x : List Nat} (y : List Nat)
    (h : ¬ ∀ a ∈ x, p a = true) : (x ++ y).takeWhile p = x.takeWhile p := by
  induction x with
  | nil => exact absurd (by simp) h
  | cons a t ih =>
    by_cases ha : p a = true
    · have ht : ¬ ∀ b ∈ t, p b = true := by
        intro hall
        exact h (by intro b hb; rcases List.mem_cons.mp hb with rfl | hb2
                    exacts [ha, hall b hb2])
      simp only [List.cons_append, List.takeWhile_cons, ha, if_true]
      rw [ih ht]
    · rw [List.cons_append, List.takeWhile_cons, List.takeWhile_cons, if_neg ha, if_neg ha]

theorem mem_of_mem_takeWhile {p : Nat → Bool} {l : List Nat} {a : Nat}
    (h : a ∈ l.takeWhile p) : p a = true := by
  induction l with
  | nil => simp [List.takeWhile] at h
  | cons b t ih =>
    by_cases hb : p b = true
    · rw [List.takeWhile_cons, if_pos hb] at h
      rcases List.mem_cons.mp h with rfl | h2
      exacts [hb, ih h2]
    · rw [List.takeWhile_cons, if_neg hb] at h
      simp at h

theorem trailing_newline_count_le (buf : List Nat) :
    trailing_newline_count buf ≤ buf.length := by
  unfold trailing_newline_count
  calc (buf.reverse.takeWhile (fun c => c == newlineByte)).length
      ≤ buf.reverse.length := (List.takeWhile_prefix _).length_le
    _ = buf.length := List.length_reverse buf

theorem all_newlines_iff (buf : List Nat) :
    (∀ c ∈ buf, c = newlineByte) ↔ buf.length = trailing_newline_count buf := by
  constructor
  · intro h
    unfold trailing_newline_count
    have : buf.reverse.takeWhile (fun c => c == newlineByte) = buf.reverse := by
      rw [List.takeWhile_eq_self_iff]
      intro a ha
      simp [h a (List.mem_reverse.mp ha)]
    rw [this, List.length_reverse]
  · intro h c hc
    have hpre : (buf.reverse.takeWhile (fun c => c == newlineByte)) = buf.reverse := by
      apply List.IsPrefix.eq_of_length (List.takeWhile_prefix _)
      rw [List.length_reverse]
      exact h.symm
    have : c ∈ buf.reverse.takeWhile (fun c => c == newlineByte) := by
      rw [hpre]; exact List.mem_reverse.mpr hc
    simpa using mem_of_mem_takeWhile this

theorem trailing_append_all {b2 : List Nat} (b1 : List Nat)
    (h : ∀ c ∈ b2, c = newlineByte) :
    trailing_newline_count (b1 ++ b2) = b2.length + trailing_newline_count b1 := by
  unfold trailing_newline_count
  rw [List.reverse_append]
  rw [takeWhileNat_append_all _ (by intro a ha; simp [h a (List.mem_reverse.mp ha)])]
  simp

theorem trailing_append_stop {b2 : List Nat} (b1 : List Nat)
    (h : ¬ ∀ c ∈ b2, c = newlineByte) :
    trailing_newline_count (b1 ++ b2) = trailing_newline_count b2 := by
  unfold trailing_newline_count
  rw [List.reverse_append]
  rw [takeWhileNat_append_stop _ (by
    intro hall
    exact h (by intro c hc
                have := hall c (List.mem_reverse.mpr hc)
                simpa using this))]

theorem piw_write_eq (st : ParagraphInspectWrite) (b : List Nat) :
    st.write b
      = { inner := st.inner ++ b,
          newlines_since_last_char :=
            if b.length = trailing_newline_count b
            then st.newlines_since_last_char + trailing_newline_count b
            else trailing_newline_count b,
          was_paragraph :=
            decide ((if b.length = trailing_newline_count b
                     then st.newlines_since_last_char + trailing_newline_count b
                     else trailing_newline_count b) > 1) } := rfl

theorem piw_write_write (st : ParagraphInspectWrite) (b1 b2 : List Nat) :
    (st.write b1).write b2 = st.write (b1 ++ b2) := by
  rw [piw_write_eq st b1, piw_write_eq _ b2, piw_write_eq st (b1 ++ b2)]
  have hinner : st.inner ++ b1 ++ b2 = st.inner ++ (b1 ++ b2) := by simp
  have hn : (if b2.length = trailing_newline_count b2
              then (if b1.length = trailing_newline_count b1
                    then st.newlines_since_last_char + trailing_newline_count b1
                    else trailing_newline_count b1) + trailing_newline_count b2
              else trailing_newline_count b2)
      = (if (b1 ++ b2).length = trailing_newline_count (b1 ++ b2)
         then st.newlines_since_last_char + trailing_newline_count (b1 ++ b2)
         else trailing_newline_count (b1 ++ b2)) := by
    by_cases h2 : ∀ c ∈ b2, c = newlineByte
    · have e2 := (all_newlines_iff b2).mp h2
      have tr12 : trailing_newline_count (b1 ++ b2)
          = b2.length + trailing_newline_count b1 := trailing_append_all b1 h2
      by_cases h1 : ∀ c ∈ b1, c = newlineByte
      · have e1 := (all_newlines_iff b1).mp h1
        have e12 : (b1 ++ b2).length = trailing_newline_count (b1 ++ b2) := by
          rw [tr12, List.length_append, ← e1]; omega
        rw [if_pos e2, if_pos e1, if_pos e12, tr12]
        omega
      · have n1 : ¬ b1.length = trailing_newline_count b1 := by
          intro he; exact h1 ((all_newlines_iff b1).mpr he)
        have n12 : ¬ (b1 ++ b2).length = trailing_newline_count (b1 ++ b2) := by
          intro he
          exact h1 (fun c hc =>
            ((all_newlines_iff (b1 ++ b2)).mpr he) c (List.mem_append.mpr (Or.inl hc)))
        rw [if_pos e2, if_neg n1, if_neg n12, tr12]
        omega
    · have n2 : ¬ b2.length = trailing_newline_count b2 := by
        intro he; exact h2 ((all_newlines_iff b2).mpr he)
      have n12 : ¬ (b1 ++ b2).length = trailing_newline_count (b1 ++ b2) := by
        intro he
        exact h2 (fun c hc =>
          ((all_newlines_iff (b1 ++ b2)).mpr he) c (List.mem_append.mpr (Or.inr hc)))
      have tr12 : trailing_newline_count (b1 ++ b2) = trailing_newline_count b2 :=
        trailing_append_stop b1 h2
      rw [if_neg n2, if_neg n12, tr12]
  rw [hinner, hn]

theorem piw_write_inv (st : ParagraphInspectWrite) (b : List Nat) :
    (st.write b).was_paragraph
      = decide ((st.write b).newlines_since_last_char > 1) := by
  simp [ParagraphInspectWrite.write]

theorem piw_writeChunks_join (chunks : List (List Nat)) :
    ∀ st : ParagraphInspectWrite,
      st.was_paragraph = decide (st.newlines_since_last_char > 1) →
      writeChunks st chunks = st.write chunks.flatten := by
  induction chunks with
  | nil =>
    intro st h
    have : st.write [] = st := by
      have h0 : trailing_newline_count ([] : List Nat) = 0 := rfl
      cases st with
      | mk i n w =>
        simp only [ParagraphInspectWrite.write, h0]
        simp only [ParagraphInspectWrite.mk.injEq] at *
        refine ⟨by simp, rfl, ?_⟩
        simpa using h.symm
    simpa [writeChunks] using this.symm
  | cons c cs ih =>
    intro st h
    have step : writeChunks st (c :: cs) = writeChunks (st.write c) cs := by
      simp [writeChunks, List.foldl_cons]
    rw [step, ih (st.write c) (piw_write_inv st c), piw_write_write]
    simp [List.flatten]

/-- C1: the paragraph tracking sink is fragmentation-insensitive — replaying any
chunk sequence through `write` from a consistent state yields the state of one
single write of the concatenation — and per write it adds the chunk length to
the running count when the chunk is all newlines, otherwise replaces the
running count by the chunk's trailing-newline count, with
`was_paragraph = (count > 1)`. -/
theorem paragraphInspectWrite_fragmentation_insensitive
    (chunks : List (List Nat)) (st : ParagraphInspectWrite)
    (h : st.was_paragraph = decide (st.newlines_since_last_char > 1)) :
    writeChunks st chunks = st.write chunks.flatten
    ∧ (∀ b : List Nat, (∀ c ∈ b, c = newlineByte) →
        (st.write b).newlines_since_last_char = st.newlines_since_last_char + b.length)
    ∧ (∀ b : List Nat, ¬ (∀ c ∈ b, c = newlineByte) →
        (st.write b).newlines_since_last_char = trailing_newline_count b)
    ∧ (∀ b : List Nat,
        (st.write b).was_paragraph = decide ((st.write b).newlines_since_last_char > 1)) := by
  refine ⟨piw_writeChunks_join chunks st h, ?_, ?_, fun b => piw_write_inv st b⟩
  · intro b hb
    have e := (all_newlines_iff b).mp hb
    simp [ParagraphInspectWrite.write, ← e]
  · intro b hb
    have n : ¬ b.length = trailing_newline_count b := by
      intro he; exact hb ((all_newlines_iff b).mpr he)
    simp [ParagraphInspectWrite.write, if_neg n]

theorem paragraphInspectWrite_fragmentation_witness :
    (ParagraphInspectWrite.new.was_paragraph
      = decide (ParagraphInspectWrite.new.newlines_since_last_char > 1))
    ∧ writeChunks ParagraphInspectWrite.new [[72, 10], [10], []]
        = ParagraphInspectWrite.new.write [72, 10, 10]
    ∧ writeChunks ParagraphInspectWrite.new [[72, 10], [10], []]
        = { inner := [72, 10, 10], newlines_since_last_char := 2, was_paragraph := true } :=
  ⟨by decide,
   (paragraphInspectWrite_fragmentation_insensitive [[72, 10], [10], []]
      ParagraphInspectWrite.new (by decide)).1,
   by decide⟩

end BulletStream

namespace BulletStream

/-! Lemmas about the line mapping sink. -/

theorem splitFold_acc (marker : Nat) (bs : List Nat) :
    ∀ (recs : List (List Nat)) (cur : List Nat),
      bs.foldl (splitRecordsStep marker) (recs, cur)
        = (recs ++ (bs.foldl (splitRecordsStep marker) ([], cur)).1,
           (bs.foldl (splitRecordsStep marker) ([], cur)).2) := by
  induction bs with
  | nil => intro recs cur; simp
  | cons b bs ih =>
    intro recs cur
    by_cases hb : b = marker
    · simp only [List.foldl_cons, splitRecordsStep, if_pos hb, List.nil_append]
      rw [ih (recs ++ [cur ++ [b]]) [], ih [cur ++ [b]] []]
      simp
    · simp only [List.foldl_cons, splitRecordsStep, if_neg hb]
      exact ih recs (cur ++ [b])

theorem mappedWrite_records (marker : Nat) (f : List Nat → List Nat) (bs : List Nat) :
    ∀ m : MappedWrite,
      MappedWrite.write marker f m bs
        = { buffer := (bs.foldl (splitRecordsStep marker) ([], m.buffer)).2,
            forwarded := m.forwarded
              ++ (((bs.foldl (splitRecordsStep marker) ([], m.buffer)).1).map f).flatten } := by
  induction bs with
  | nil => intro m; simp [MappedWrite.write]
  | cons b bs ih =>
    intro m
    by_cases hb : b = marker
    · have step : MappedWrite.write marker f m (b :: bs)
          = MappedWrite.write marker f
              { buffer := [], forwarded := m.forwarded ++ f (m.buffer ++ [b]) } bs := by
        simp [MappedWrite.write, MappedWrite.writeByte, if_pos hb,
          map_and_write_current_buffer]
      rw [step, ih]
      have hfold : (b :: bs).foldl (splitRecordsStep marker) ([], m.buffer)
          = ([m.buffer ++ [b]] ++ (bs.foldl (splitRecordsStep marker) ([], [])).1,
             (bs.foldl (splitRecordsStep marker) ([], [])).2) := by
        simp only [List.foldl_cons, splitRecordsStep, if_pos hb]
        exact splitFold_acc marker bs [m.buffer ++ [b]] []
      rw [hfold]
      simp
    · have step : MappedWrite.write marker f m (b :: bs)
          = MappedWrite.write marker f
              { buffer := m.buffer ++ [b], forwarded := m.forwarded } bs := by
        simp [MappedWrite.write, MappedWrite.writeByte, if_neg hb]
      rw [step, ih]
      have hfold : (b :: bs).foldl (splitRecordsStep marker) ([], m.buffer)
          = bs.foldl (splitRecordsStep marker) ([], m.buffer ++ [b]) := by
        simp only [List.foldl_cons, splitRecordsStep, if_neg hb]
      rw [hfold]

theorem mappedWrite_chunks_flatten (marker : Nat) (f : List Nat → List Nat)
    (chunks : List (List Nat)) :
    ∀ m : MappedWrite,
      MappedWrite.writeChunks marker f m chunks
        = MappedWrite.write marker f m chunks.flatten := by
  induction chunks with
  | nil => intro m; rfl
  | cons c cs ih =>
    intro m
    have : MappedWrite.writeChunks marker f m (c :: cs)
        = MappedWrite.writeChunks marker f (MappedWrite.write marker f m c) cs := rfl
    rw [this, ih, List.flatten_cons, MappedWrite.write, MappedWrite.write,
      MappedWrite.write, List.foldl_append]

theorem splitFold_flatten (marker : Nat) (bs : List Nat) :
    ∀ cur : List Nat,
      ((bs.foldl (splitRecordsStep marker) ([], cur)).1).flatten
          ++ (bs.foldl (splitRecordsStep marker) ([], cur)).2
        = cur ++ bs := by
  induction bs with
  | nil => intro cur; simp
  | cons b bs ih =>
    intro cur
    by_cases hb : b = marker
    · simp only [List.foldl_cons, splitRecordsStep, if_pos hb, List.nil_append]
      rw [splitFold_acc marker bs [cur ++ [b]] []]
      have := ih []
      simp only [List.flatten_append, List.flatten_cons, List.flatten_nil,
        List.append_nil, List.append_assoc] at *
      rw [this]
      simp
    · simp only [List.foldl_cons, splitRecordsStep, if_neg hb]
      rw [ih (cur ++ [b])]
      simp

theorem splitFold_count (marker : Nat) (bs : List Nat) :
    ∀ cur : List Nat,
      ((bs.foldl (splitRecordsStep marker) ([], cur)).1).length
        = bs.countP (fun b => b == marker) := by
  induction bs with
  | nil => intro cur; simp
  | cons b bs ih =>
    intro cur
    by_cases hb : b = marker
    · simp only [List.foldl_cons, splitRecordsStep, if_pos hb, List.nil_append]
      rw [splitFold_acc marker bs [cur ++ [b]] []]
      simp [List.countP_cons, hb, ih []]
    · simp only [List.foldl_cons, splitRecordsStep, if_neg hb]
      rw [ih (cur ++ [b])]
      simp [List.countP_cons, hb]

/-- C2 counterexample: the release claim as stated is false — `unwrap` applies the
transform to the buffer even when the remainder is empty and forwards the
result, observable with a transform that maps the empty record to a non-empty
byte string (marker 10, transform constantly `[88]`, single write `[97, 10]`:
the inner sink receives `[88, 88]`, not `[88]`). -/
theorem mappedWrite_release_claim_false : ¬ MappedWriteReleaseClaim := by
  intro h
  exact absurd (h 10 (fun _ => [88]) [[97, 10]]) (by decide)

/-- C2 (amended): across any write sequence, the transform is applied to exactly
one complete record (marker included) per marker occurrence and the result
forwarded in order; on release or teardown the transform is applied to the
remainder exactly once — even when the remainder is empty — and forwarded; no
buffered byte is ever lost (records and remainder reassemble the input). -/
theorem mappedWrite_release_spec (marker : Nat) (f : List Nat → List Nat)
    (chunks : List (List Nat)) :
    (MappedWrite.writeChunks marker f MappedWrite.new chunks).buffer
        = (splitRecords marker chunks.flatten).2
    ∧ (MappedWrite.writeChunks marker f MappedWrite.new chunks).forwarded
        = (((splitRecords marker chunks.flatten).1).map f).flatten
    ∧ MappedWrite.unwrapForwarded f (MappedWrite.writeChunks marker f MappedWrite.new chunks)
        = (((splitRecords marker chunks.flatten).1).map f).flatten
            ++ f (splitRecords marker chunks.flatten).2
    ∧ ((splitRecords marker chunks.flatten).1).flatten
          ++ (splitRecords marker chunks.flatten).2 = chunks.flatten
    ∧ ((splitRecords marker chunks.flatten).1).length
        = chunks.flatten.countP (fun b => b == marker) := by
  have hw := mappedWrite_chunks_flatten marker f chunks MappedWrite.new
  have hr := mappedWrite_records marker f chunks.flatten MappedWrite.new
  have hbuf : MappedWrite.new.buffer = [] := rfl
  have hfwd : MappedWrite.new.forwarded = [] := rfl
  refine ⟨?_, ?_, ?_, ?_, ?_⟩
  · rw [hw, hr]; simp [splitRecords, hbuf]
  · rw [hw, hr]; simp [splitRecords, hbuf, hfwd]
  · rw [MappedWrite.unwrapForwarded, hw, hr]
    simp [splitRecords, hbuf, hfwd, map_and_write_current_buffer]
  · have := splitFold_flatten marker chunks.flatten []
    simpa [splitRecords] using this
  · have := splitFold_count marker chunks.flatten []
    simpa [splitRecords] using this

theorem splitFold_no_marker (marker : Nat) (l : List Nat) (h : marker ∉ l) :
    ∀ (bs cur : List Nat),
      (l ++ bs).foldl (splitRecordsStep marker) ([], cur)
        = bs.foldl (splitRecordsStep marker) ([], cur ++ l) := by
  induction l with
  | nil => intro bs cur; simp
  | cons b l ih =>
    intro bs cur
    have hb : ¬ b = marker := fun he => h (he ▸ List.mem_cons_self b l)
    simp only [List.cons_append, List.foldl_cons, splitRecordsStep, if_neg hb]
    rw [ih (fun hm => h (List.mem_cons_of_mem b hm)) bs (cur ++ [b])]
    simp

theorem records_of_lines (lines : List (List Nat))
    (h : ∀ l ∈ lines, (newlineByte : Nat) ∉ l) :
    ((lines.map (fun l => l ++ [newlineByte])).flatten).foldl
        (splitRecordsStep newlineByte) ([], [])
      = (lines.map (fun l => l ++ [newlineByte]), []) := by
  induction lines with
  | nil => rfl
  | cons l ls ih =>
    have hnot : (newlineByte : Nat) ∉ l := h l (List.mem_cons_self l ls)
    have hAssoc : ((l :: ls).map (fun l => l ++ [newlineByte])).flatten
        = l ++ ([newlineByte] ++ ((ls.map (fun l => l ++ [newlineByte])).flatten)) := by
      simp
    rw [hAssoc, splitFold_no_marker newlineByte l hnot]
    simp only [List.cons_append, List.nil_append, List.foldl_cons, splitRecordsStep,
      eq_self_iff_true, if_true]
    rw [splitFold_acc newlineByte _ [l ++ [newlineByte]] [],
      ih (fun x hx => h x (List.mem_cons_of_mem l hx))]
    simp

/-- C9: streaming complete lines through the line mapping sink installed by
`start_stream` forwards every non-blank line with the fixed six-space indent
prepended and every blank line unchanged, and an explicit release after the
final complete line forwards nothing further (the remainder is empty). -/
theorem start_stream_indents (lines : List (List Nat))
    (h : ∀ l ∈ lines, (newlineByte : Nat) ∉ l) :
    MappedWrite.unwrapForwarded start_stream_line_fn
        (MappedWrite.writeChunks newlineByte start_stream_line_fn MappedWrite.new
          (lines.map (fun l => l ++ [newlineByte])))
      = (lines.map (fun l =>
            if l = [] then [newlineByte] else CMD_INDENT ++ l ++ [newlineByte])).flatten := by
  rw [mappedWrite_chunks_flatten, mappedWrite_records, MappedWrite.unwrapForwarded]
  have hempty : MappedWrite.new.buffer = [] := rfl
  rw [hempty, records_of_lines lines h]
  have hf : ∀ l ∈ lines, start_stream_line_fn (l ++ [newlineByte])
      = if l = [] then [newlineByte] else CMD_INDENT ++ l ++ [newlineByte] := by
    intro l _
    by_cases hl : l = []
    · subst hl; simp [start_stream_line_fn]
    · have h1 : ¬ l ++ [newlineByte] = [] := by simp
      have h2 : ¬ l ++ [newlineByte] = [newlineByte] := by
        intro he
        cases l with
        | nil => exact hl rfl
        | cons a t =>
          have hlen := congrArg List.length he
          simp at hlen
      simp [start_stream_line_fn, h1, h2, hl, List.append_assoc]
  have hmap : (lines.map (fun l => start_stream_line_fn (l ++ [newlineByte])))
      = lines.map (fun l =>
          if l = [] then [newlineByte] else CMD_INDENT ++ l ++ [newlineByte]) :=
    List.map_congr_left hf
  simp only [map_and_write_current_buffer, List.map_map]
  have hcomp : (List.map (start_stream_line_fn ∘ fun l => l ++ [newlineByte]) lines)
      = lines.map (fun l => start_stream_line_fn (l ++ [newlineByte])) := rfl
  have hfwd0 : MappedWrite.new.forwarded = [] := rfl
  have hfn0 : start_stream_line_fn [] = [] := rfl
  rw [hfwd0, hfn0, hcomp, hmap]
  simp

theorem start_stream_indents_witness :
    (∀ l ∈ [[102, 111, 111], [98, 97, 114]], (newlineByte : Nat) ∉ l)
    ∧ MappedWrite.unwrapForwarded start_stream_line_fn
        (MappedWrite.writeChunks newlineByte start_stream_line_fn MappedWrite.new
          ([[102, 111, 111], [98, 97, 114]].map (fun l => l ++ [newlineByte])))
      = ([[102, 111, 111], [98, 97, 114]].map (fun l =>
            if l = [] then [newlineByte] else CMD_INDENT ++ l ++ [newlineByte])).flatten
    ∧ ([[102, 111, 111], [98, 97, 114]].map (fun l =>
          if l = [] then [newlineByte] else CMD_INDENT ++ l ++ [newlineByte])).flatten
      = [32, 32, 32, 32, 32, 32, 102, 111, 111, 10,
         32, 32, 32, 32, 32, 32, 98, 97, 114, 10] :=
  ⟨by decide, start_stream_indents [[102, 111, 111], [98, 97, 114]] (by decide), by decide⟩

end BulletStream

namespace BulletStream

/-! Lemmas about empty and single-line bullet rendering. -/

theorem prefix_first_rest_lines_nil (first rest : List Char) :
    prefix_first_rest_lines first rest [] = first := by
  simp [prefix_first_rest_lines, prefix_lines]

/-- C10: a bullet or sub-bullet whose contents trim to the empty string still
emits the first-line prefix followed by a newline: `"- \n"` for `bullet` and
`"  - \n"` for `sub_bullet`. -/
theorem bullet_empty_contents (curr s : List Char) (h : trimChars s = []) :
    bullet curr s = curr ++ "- ".toList ++ ['\n']
    ∧ sub_bullet curr s = curr ++ "  - ".toList ++ ['\n'] := by
  constructor
  · rw [bullet, h, prefix_first_rest_lines_nil]
  · rw [sub_bullet, sub_bullet_prefix_text, h, prefix_first_rest_lines_nil]

theorem bullet_empty_contents_witness :
    trimChars "  ".toList = []
    ∧ bullet [] "  ".toList = "- \n".toList
    ∧ sub_bullet [] "  ".toList = "  - \n".toList :=
  ⟨by decide,
   by rw [(bullet_empty_contents [] "  ".toList (by decide)).1]; decide,
   by rw [(bullet_empty_contents [] "  ".toList (by decide)).2]; decide⟩

theorem splitInclusiveNl_no_nl (s : List Char) (hnl : '\n' ∉ s) (hne : s ≠ []) :
    splitInclusiveNl s = [s] := by
  induction s with
  | nil => exact absurd rfl hne
  | cons c t ih =>
    have hc : ¬ c = '\n' := fun he => hnl (he ▸ List.mem_cons_self c t)
    rw [splitInclusiveNl, if_neg hc]
    by_cases ht : t = []
    · subst ht; rfl
    · rw [ih (fun hm => hnl (List.mem_cons_of_mem c hm)) ht]

theorem prefix_first_rest_single (first rest s : List Char) (hnl : '\n' ∉ s)
    (hne : s ≠ []) : prefix_lines (fun i _ => if i = 0 then first else rest) s
      = first ++ s := by
  rw [prefix_lines, if_neg hne, splitInclusiveNl_no_nl s hnl hne]
  simp [List.enum]

theorem dropWhile_eq_self_of_head (p : Char → Bool) (s : List Char)
    (h : ∀ c, s.head? = some c → p c = false) : s.dropWhile p = s := by
  cases s with
  | nil => rfl
  | cons a t =>
    have := h a rfl
    rw [List.dropWhile_cons, this]
    simp

theorem trimChars_eq_self (s : List Char)
    (hh : ∀ c, s.head? = some c → isWs c = false)
    (hl : ∀ c, s.getLast? = some c → isWs c = false) : trimChars s = s := by
  rw [trimChars, dropWhile_eq_self_of_head _ s hh]
  have : s.reverse.dropWhile isWs = s.reverse := by
    apply dropWhile_eq_self_of_head
    intro c hc
    exact hl c (by rwa [List.head?_reverse] at hc)
  rw [this, List.reverse_reverse]

theorem bullet_single_line (curr s : List Char) (hne : s ≠ []) (hnl : '\n' ∉ s)
    (ht : trimChars s = s) : bullet curr s = curr ++ "- ".toList ++ s ++ ['\n'] := by
  rw [bullet, prefix_first_rest_lines, ht, prefix_first_rest_single _ _ s hnl hne]
  simp

/-! Background guard and terminal done. -/

/-- C7: a background timer guard constructed by `sub_start_print_interval` and
released without an explicit `done`/`cancel` leaves the literal text `(Error)`
as the trailing content of the timer's line. -/
theorem background_guard_abandon_error (curr s : List Char) :
    PrintGuard.abandon (sub_start_print_interval curr s)
        = curr ++ sub_bullet_prefix_text s ++ "(Error)".toList
    ∧ "(Error)".toList <:+ PrintGuard.abandon (sub_start_print_interval curr s) := by
  constructor
  · rfl
  · exact ⟨curr ++ sub_bullet_prefix_text s, by simp [PrintGuard.abandon,
      sub_start_print_interval, print_interval]⟩

/-- C8: terminal `done` on a Bullet handle writes `- Done (finished in <human
elapsed>)` when a start time was recorded and `- Done` otherwise, then yields
the raw inner sink (the accumulated content) back to the caller. -/
theorem print_bullet_done_spec (human : Nat → List Char) (now : Nat)
    (p : PrintBulletState) (hn : ∀ d, '\n' ∉ human d) :
    (∀ t, p.started = some t →
        printBulletDone human now p
          = p.content ++ "- ".toList ++ "Done (finished in ".toList
              ++ human (now - t) ++ ")".toList ++ ['\n'])
    ∧ (p.started = none →
        printBulletDone human now p = p.content ++ "- ".toList ++ "Done".toList ++ ['\n']) := by
  constructor
  · intro t hst
    simp only [printBulletDone, hst, all_done]
    have hs : ("Done (finished in ".toList ++ human (now - t) ++ ")".toList) ≠ [] := by
      simp
    have hnl : '\n' ∉ ("Done (finished in ".toList ++ human (now - t) ++ ")".toList) := by
      intro hm
      rcases List.mem_append.mp hm with hm | hm
      · rcases List.mem_append.mp hm with hm | hm
        · revert hm; decide
        · exact hn (now - t) hm
      · revert hm; decide
    have hterm : ("Done (finished in ".toList ++ human (now - t) ++ ")".toList)
        = ("Done (finished in ".toList ++ human (now - t)) ++ [')'] := by
      simp
    have htrim : trimChars ("Done (finished in ".toList ++ human (now - t) ++ ")".toList)
        = "Done (finished in ".toList ++ human (now - t) ++ ")".toList := by
      apply trimChars_eq_self
      · intro c hc
        have hD : ("Done (finished in ".toList ++ human (now - t) ++ ")".toList).head?
            = some 'D' := rfl
        rw [hD] at hc
        cases hc
        decide
      · intro c hc
        rw [hterm, List.getLast?_concat] at hc
        cases hc
        decide
    rw [bullet_single_line _ _ hs hnl htrim]
    simp
  · intro hst
    simp only [printBulletDone, hst, all_done]
    rw [bullet_single_line _ _ (by decide) (by decide) (by decide)]

theorem print_bullet_done_witness :
    (∀ d : Nat, '\n' ∉ "< 0.1s".toList)
    ∧ printBulletDone (fun _ : Nat => "< 0.1s".toList) 5
        { started := some 2, content := [] }
        = [] ++ "- ".toList ++ "Done (finished in ".toList
            ++ "< 0.1s".toList ++ ")".toList ++ ['\n']
    ∧ printBulletDone (fun _ : Nat => "< 0.1s".toList) 5
        { started := none, content := ['x'] }
        = ['x'] ++ "- ".toList ++ "Done".toList ++ ['\n'] :=
  ⟨fun _ => by decide,
   (print_bullet_done_spec (fun _ => "< 0.1s".toList) 5
      { started := some 2, content := [] }
      (fun d => show '\n' ∉ "< 0.1s".toList by decide)).1 2 rfl,
   (print_bullet_done_spec (fun _ => "< 0.1s".toList) 5
      { started := none, content := ['x'] }
      (fun d => show '\n' ∉ "< 0.1s".toList by decide)).2 rfl⟩

/-! Stream multiplexer and global coordinator. -/

theorem channel_foldl_queue (msgs : List (List Nat)) :
    ∀ q : List (List Nat),
      (msgs.foldl Channel.send { queue := q }).queue = q ++ msgs := by
  induction msgs with
  | nil => intro q; simp
  | cons m ms ih =>
    intro q
    have : Channel.send { queue := q } m = { queue := q ++ [m] } := rfl
    rw [List.foldl_cons, this, ih (q ++ [m])]
    simp

/-- C6: if the producing closure's return value is a writer handle, the stream
multiplexer fails with the diagnostic panic message instead of deadlocking; for
any other return value the consumer receives exactly the produced messages in
order (the channel is closed and fully drained) and the closure's result is
returned. -/
theorem mpsc_stream_to_output_spec {α σ : Type} (msgs : List (List Nat))
    (output : List (List Nat) → σ) :
    (@mpsc_stream_to_output α σ msgs StreamRet.leakedWriter output
        = .error "The MpscWriter was leaked. This will cause a deadlock.")
    ∧ ∀ a : α, mpsc_stream_to_output msgs (StreamRet.value a) output
        = .ok (a, output msgs) := by
  constructor
  · rfl
  · intro a
    rw [mpsc_stream_to_output]
    have := channel_foldl_queue msgs []
    simp only [List.nil_append] at this
    rw [this]

/-- C4: the scoped global-sink override restores the exact original sink on both
the normal-return path and the panic path, re-raises the panic to the caller
after restoration, and on normal return yields the inner value of the
swapped-out writer. -/
theorem with_locked_writer_spec {σ π : Type} (slot : PIW σ) (w : σ)
    (f : PIW σ → PIW σ × BodyResult π) :
    (with_locked_writer slot w f).1 = slot
    ∧ (∀ p x, f (PIW.mk0 w) = (x, BodyResult.panicked p) →
        (with_locked_writer slot w f).2 = .error p)
    ∧ (∀ x, f (PIW.mk0 w) = (x, BodyResult.normal) →
        (with_locked_writer slot w f).2 = .ok x.inner) := by
  refine ⟨?_, ?_, ?_⟩
  · rw [with_locked_writer]
    rcases hf : (f (PIW.mk0 w)).2 with _ | p <;> simp [hf]
  · intro p x hfx
    rw [with_locked_writer]
    rw [hfx]
  · intro x hfx
    rw [with_locked_writer]
    rw [hfx]

theorem with_locked_writer_witness :
    ((fun st : PIW (List Char) => (st, BodyResult.panicked (7 : Nat))) (PIW.mk0 "new".toList)
        = (PIW.mk0 "new".toList, BodyResult.panicked (7 : Nat)))
    ∧ (with_locked_writer (PIW.mk0 "old".toList) "new".toList
        (fun st => (st, BodyResult.panicked (7 : Nat)))).1 = PIW.mk0 "old".toList
    ∧ (with_locked_writer (PIW.mk0 "old".toList) "new".toList
        (fun st => (st, BodyResult.panicked (7 : Nat)))).2 = .error 7
    ∧ (with_locked_writer (PIW.mk0 "old".toList) "new".toList
        (fun st => (st, (BodyResult.normal : BodyResult Nat)))).2 = .ok "new".toList :=
  ⟨rfl,
   (with_locked_writer_spec (PIW.mk0 "old".toList) "new".toList
      (fun st => (st, BodyResult.panicked (7 : Nat)))).1,
   (with_locked_writer_spec (PIW.mk0 "old".toList) "new".toList
      (fun st => (st, BodyResult.panicked (7 : Nat)))).2.1 7 (PIW.mk0 "new".toList) rfl,
   (with_locked_writer_spec (PIW.mk0 "old".toList) "new".toList
      (fun st => (st, (BodyResult.normal : BodyResult Nat)))).2.2 (PIW.mk0 "new".toList) rfl⟩

end BulletStream

namespace BulletStream

/-! Replace machinery for the ANSI escape wrapper. -/

theorem listReplaceF_fuel (n : Nat) :
    ∀ (m : Nat) (s pat rep : List Char), s.length ≤ n → s.length ≤ m →
      listReplaceF n s pat rep = listReplaceF m s pat rep := by
  induction n with
  | zero =>
    intro m s pat rep hn _
    have : s = [] := List.length_eq_zero.mp (Nat.le_zero.mp hn)
    subst this
    cases m <;> rfl
  | succ n ih =>
    intro m s pat rep hn hm
    cases s with
    | nil => cases m <;> rfl
    | cons a t =>
      cases m with
      | zero => simp at hm
      | succ k =>
        simp only [listReplaceF]
        by_cases h : pat ≠ [] ∧ pat.isPrefixOf (a :: t) = true
        · rw [if_pos h, if_pos h]
          have hp1 : 1 ≤ pat.length :=
            Nat.one_le_iff_ne_zero.mpr (fun h0 => h.1 (List.length_eq_zero.mp h0))
          have hlen : ((a :: t).drop pat.length).length ≤ n := by
            rw [List.length_drop]
            simp only [List.length_cons] at hn ⊢
            omega
          have hlen2 : ((a :: t).drop pat.length).length ≤ k := by
            rw [List.length_drop]
            simp only [List.length_cons] at hm ⊢
            omega
          rw [ih k _ pat rep hlen hlen2]
        · rw [if_neg h, if_neg h]
          have h1 : t.length ≤ n := by simp only [List.length_cons] at hn; omega
          have h2 : t.length ≤ k := by simp only [List.length_cons] at hm; omega
          rw [ih k t pat rep h1 h2]

theorem listReplace_cons (a : Char) (t pat rep : List Char) :
    listReplace (a :: t) pat rep
      = if pat ≠ [] ∧ pat.isPrefixOf (a :: t) = true then
          rep ++ listReplace ((a :: t).drop pat.length) pat rep
        else a :: listReplace t pat rep := by
  rw [listReplace]
  show listReplaceF (t.length + 1) (a :: t) pat rep = _
  simp only [listReplaceF]
  by_cases h : pat ≠ [] ∧ pat.isPrefixOf (a :: t) = true
  · rw [if_pos h, if_pos h, listReplace]
    have hp1 : 1 ≤ pat.length :=
      Nat.one_le_iff_ne_zero.mpr (fun h0 => h.1 (List.length_eq_zero.mp h0))
    have : ((a :: t).drop pat.length).length ≤ t.length := by
      rw [List.length_drop]
      simp only [List.length_cons]
      omega
    rw [listReplaceF_fuel t.length _ _ pat rep this (Nat.le_refl _)]
  · rw [if_neg h, if_neg h, listReplace]

theorem listReplace_empty (pat rep : List Char) : listReplace [] pat rep = [] := rfl

theorem prefix_append_cases {p x y : List Char} (h : p <+: x ++ y) :
    p <+: x ∨ x <+: p := by
  obtain ⟨t, ht⟩ := h
  rcases List.append_eq_append_iff.mp ht.symm with ⟨a, ha1, _⟩ | ⟨c, hc1, _⟩
  · exact Or.inr ⟨a, ha1.symm⟩
  · exact Or.inl ⟨c, hc1.symm⟩

theorem prefix_head_eq {p x : List Char} (h : p <+: x) (hp : p ≠ []) :
    x.head? = p.head? := by
  obtain ⟨t, ht⟩ := h
  cases p with
  | nil => exact absurd rfl hp
  | cons c p2 => rw [← ht]; rfl

theorem not_prefix_of_heads {p x : List Char} {c d : Char} (hp : p.head? = some c)
    (hx : x.head? = some d) (hne : c ≠ d) : ¬ p <+: x := by
  intro h
  have hpne : p ≠ [] := by intro he; rw [he] at hp; cases hp
  have := prefix_head_eq h hpne
  rw [hp, hx] at this
  exact hne (Option.some.inj this).symm

theorem prefix_cancel (p q r : List Char) (h : p ++ q <+: p ++ r) : q <+: r := by
  obtain ⟨t, ht⟩ := h
  rw [List.append_assoc] at ht
  exact ⟨t, List.append_cancel_left ht⟩

/-! Concrete facts about the color codes. -/

theorem color_ne_nil (a : ANSIColor) : ANSIColor.to_str a ≠ [] := by
  cases a <;> decide

theorem color_headq (a : ANSIColor) : (ANSIColor.to_str a).head? = some ESC := by
  cases a <;> decide

theorem color_tail_esc (a : ANSIColor) : ∀ c ∈ (ANSIColor.to_str a).tail, c ≠ ESC := by
  cases a <;> decide

theorem reset_ne_nil : RESET ≠ [] := by decide

theorem reset_headq : RESET.head? = some ESC := by decide

theorem reset_tail_esc : ∀ c ∈ RESET.tail, c ≠ ESC := by decide

theorem not_reset_prefix_color (a : ANSIColor) : ¬ RESET <+: ANSIColor.to_str a := by
  cases a <;> decide

theorem not_color_prefix_reset (a : ANSIColor) : ¬ ANSIColor.to_str a <+: RESET := by
  cases a <;> decide

theorem not_color_prefix_color (a b : ANSIColor) (hne : a ≠ b) :
    ¬ ANSIColor.to_str a <+: ANSIColor.to_str b := by
  cases a <;> cases b <;> first | exact absurd rfl hne | decide

theorem color_length_gt (a : ANSIColor) : 4 < (ANSIColor.to_str a).length := by
  cases a <;> decide

theorem nl_not_mem_color (a : ANSIColor) : '\n' ∉ ANSIColor.to_str a := by
  cases a <;> decide

theorem nl_not_mem_reset : '\n' ∉ RESET := by decide

/-! Generic skip lemmas for `listReplace`. -/

theorem listReplace_cons_no {a : Char} {t pat : List Char} (rep : List Char)
    (h : ¬ pat <+: (a :: t)) :
    listReplace (a :: t) pat rep = a :: listReplace t pat rep := by
  rw [listReplace_cons]
  rw [if_neg]
  intro ⟨_, h2⟩
  exact h (List.isPrefixOf_iff_prefix.mp h2)

theorem listReplace_match {pat : List Char} (r rep : List Char) (hpat : pat ≠ []) :
    listReplace (pat ++ r) pat rep = rep ++ listReplace r pat rep := by
  cases pat with
  | nil => exact absurd rfl hpat
  | cons p0 pt =>
    rw [List.cons_append, listReplace_cons]
    rw [if_pos]
    · rw [← List.cons_append, List.drop_left]
    · exact ⟨hpat, List.isPrefixOf_iff_prefix.mpr (by
        rw [← List.cons_append]; exact List.prefix_append _ _)⟩

theorem listReplace_clean {pat : List Char} (L r rep : List Char)
    (hpat : pat.head? = some ESC) (hL : ∀ c ∈ L, c ≠ ESC) :
    listReplace (L ++ r) pat rep = L ++ listReplace r pat rep := by
  induction L with
  | nil => simp
  | cons a t ih =>
    rw [List.cons_append, listReplace_cons_no rep]
    · rw [ih (fun c hc => hL c (List.mem_cons_of_mem a hc))]
      rfl
    · exact not_prefix_of_heads hpat rfl
        (fun he => (hL a (List.mem_cons_self a t)) he.symm)

theorem listReplace_clean_self {pat : List Char} (L rep : List Char)
    (hpat : pat.head? = some ESC) (hL : ∀ c ∈ L, c ≠ ESC) :
    listReplace L pat rep = L := by
  have := listReplace_clean L [] rep hpat hL
  rw [List.append_nil] at this
  rw [this, listReplace_empty, List.append_nil]

theorem listReplace_code {pat code : List Char} (r rep : List Char)
    (hpat : pat.head? = some ESC) (hcode : code ≠ [])
    (htail : ∀ c ∈ code.tail, c ≠ ESC) (h0 : ¬ pat <+: code ++ r) :
    listReplace (code ++ r) pat rep = code ++ listReplace r pat rep := by
  cases code with
  | nil => exact absurd rfl hcode
  | cons c0 ct =>
    rw [List.cons_append, listReplace_cons_no rep (by rwa [← List.cons_append])]
    rw [listReplace_clean ct r rep hpat htail]
    rfl

theorem listReplace_long (s pat rep : List Char) (h : s.length < pat.length) :
    listReplace s pat rep = s := by
  induction s with
  | nil => rfl
  | cons a t ih =>
    rw [listReplace_cons_no rep]
    · rw [ih (by simp only [List.length_cons] at h; omega)]
    · intro hp
      have := hp.length_le
      omega

end BulletStream

namespace BulletStream

theorem catColors_nil : catColors [] = [] := rfl

theorem catColors_cons (c : ANSIColor) (s : List ANSIColor) :
    catColors (c :: s) = ANSIColor.to_str c ++ catColors s := by
  simp [catColors]

theorem head?_append_left {x : List Char} (y : List Char) (h : x ≠ []) :
    (x ++ y).head? = x.head? := by
  cases x with
  | nil => exact absurd rfl h
  | cons a t => rfl

theorem ee_headq (e : ANSIColor) :
    (ANSIColor.to_str e ++ ANSIColor.to_str e).head? = some ESC := by
  rw [head?_append_left _ (color_ne_nil e)]
  exact color_headq e

theorem eR_headq (e : ANSIColor) :
    (ANSIColor.to_str e ++ RESET).head? = some ESC := by
  rw [head?_append_left _ (color_ne_nil e)]
  exact color_headq e

theorem ee_length_gt (e : ANSIColor) :
    4 < (ANSIColor.to_str e ++ ANSIColor.to_str e).length := by
  have := color_length_gt e
  rw [List.length_append]
  omega

theorem eR_length_gt (e : ANSIColor) :
    4 < (ANSIColor.to_str e ++ RESET).length := by
  have := color_length_gt e
  rw [List.length_append]
  omega

theorem color_prefix_cat {a : ANSIColor} {s : List ANSIColor} {r : List Char}
    (h : ANSIColor.to_str a <+: catColors s ++ r) :
    (∃ s', s = a :: s') ∨ (s = [] ∧ ANSIColor.to_str a <+: r) := by
  cases s with
  | nil => exact Or.inr ⟨rfl, by simpa [catColors_nil] using h⟩
  | cons c s' =>
    by_cases hac : a = c
    · exact Or.inl ⟨s', by rw [hac]⟩
    · rw [catColors_cons, List.append_assoc] at h
      rcases prefix_append_cases h with h1 | h1
      · exact absurd h1 (not_color_prefix_color a c hac)
      · exact absurd h1 (not_color_prefix_color c a (fun he => hac he.symm))

theorem reset_prefix_cat {s : List ANSIColor} {r : List Char}
    (h : RESET <+: catColors s ++ r) : s = [] ∧ RESET <+: r := by
  cases s with
  | nil => exact ⟨rfl, by simpa [catColors_nil] using h⟩
  | cons c s' =>
    rw [catColors_cons, List.append_assoc] at h
    rcases prefix_append_cases h with h1 | h1
    · exact absurd h1 (not_reset_prefix_color c)
    · exact absurd h1 (not_color_prefix_reset c)

theorem code_not_prefix_clean {p L : List Char} (r : List Char)
    (hp : p.head? = some ESC) (hL : ∀ c ∈ L, c ≠ ESC) (hne : L ≠ []) :
    ¬ p <+: L ++ r := by
  intro h
  rcases prefix_append_cases h with h1 | h1
  · cases L with
    | nil => exact hne rfl
    | cons l0 L' =>
      exact absurd h1 (not_prefix_of_heads hp rfl
        (fun he => hL l0 (List.mem_cons_self l0 L') he.symm))
  · cases L with
    | nil => exact hne rfl
    | cons l0 L' =>
      have h2 := prefix_head_eq h1 (by simp)
      rw [hp] at h2
      exact hL l0 (List.mem_cons_self l0 L') (Option.some.inj h2).symm

theorem listReplace_reset_skip_stack (rep : List Char) :
    ∀ (s : List ANSIColor) (r : List Char),
      listReplace (catColors s ++ r) RESET rep = catColors s ++ listReplace r RESET rep := by
  intro s
  induction s with
  | nil => intro r; simp [catColors_nil]
  | cons c s' ih =>
    intro r
    rw [catColors_cons, List.append_assoc]
    rw [listReplace_code (catColors s' ++ r) rep reset_headq (color_ne_nil c)
      (color_tail_esc c) (by
        intro h
        rcases prefix_append_cases h with h1 | h1
        · exact absurd h1 (not_reset_prefix_color c)
        · exact absurd h1 (not_color_prefix_reset c))]
    rw [ih r, List.append_assoc]

theorem listReplace_ee_skip_stack (e : ANSIColor) {L : List Char} (m : List Char)
    (hL1 : L ≠ []) (hL2 : ∀ c ∈ L, c ≠ ESC) :
    ∀ s : List ANSIColor, List.Chain' (fun a b => a ≠ b) s →
      listReplace (catColors s ++ (L ++ m))
          (ANSIColor.to_str e ++ ANSIColor.to_str e) (ANSIColor.to_str e)
        = catColors s ++ listReplace (L ++ m)
            (ANSIColor.to_str e ++ ANSIColor.to_str e) (ANSIColor.to_str e) := by
  intro s
  induction s with
  | nil => intro _; simp [catColors_nil]
  | cons c s' ih =>
    intro hch
    rw [catColors_cons, List.append_assoc]
    rw [listReplace_code (catColors s' ++ (L ++ m)) _ (ee_headq e) (color_ne_nil c)
      (color_tail_esc c) (by
        by_cases hc : c = e
        · subst hc
          intro h
          have h2 : ANSIColor.to_str c <+: catColors s' ++ (L ++ m) :=
            prefix_cancel (ANSIColor.to_str c) _ _ h
          rcases color_prefix_cat h2 with ⟨s'', hs⟩ | ⟨_, h3⟩
          · rw [hs] at hch
            exact (List.chain'_cons.mp hch).1 rfl
          · exact absurd h3 (code_not_prefix_clean m (color_headq c) hL2 hL1)
        · intro h
          rcases prefix_append_cases h with h1 | h1
          · exact absurd ((List.prefix_append (ANSIColor.to_str e)
              (ANSIColor.to_str e)).trans h1) (not_color_prefix_color e c
                (fun he => hc he.symm))
          · rcases prefix_append_cases h1 with h2 | h2
            · exact absurd h2 (not_color_prefix_color c e hc)
            · exact absurd h2 (not_color_prefix_color e c (fun he => hc he.symm)))]
    rw [ih hch.tail, List.append_assoc]

theorem listReplace_eR_skip_stack (e : ANSIColor) {L : List Char} (m : List Char)
    (hL1 : L ≠ []) (hL2 : ∀ c ∈ L, c ≠ ESC) :
    ∀ s : List ANSIColor,
      listReplace (catColors s ++ (L ++ m)) (ANSIColor.to_str e ++ RESET) []
        = catColors s ++ listReplace (L ++ m) (ANSIColor.to_str e ++ RESET) [] := by
  intro s
  induction s with
  | nil => simp [catColors_nil]
  | cons c s' ih =>
    rw [catColors_cons, List.append_assoc]
    rw [listReplace_code (catColors s' ++ (L ++ m)) _ (eR_headq e) (color_ne_nil c)
      (color_tail_esc c) (by
        by_cases hc : c = e
        · subst hc
          intro h
          have h2 : RESET <+: catColors s' ++ (L ++ m) :=
            prefix_cancel (ANSIColor.to_str c) _ _ h
          rcases reset_prefix_cat h2 with ⟨_, h3⟩
          exact absurd h3 (code_not_prefix_clean m reset_headq hL2 hL1)
        · intro h
          rcases prefix_append_cases h with h1 | h1
          · exact absurd ((List.prefix_append (ANSIColor.to_str e) RESET).trans h1)
              (not_color_prefix_color e c (fun he => hc he.symm))
          · rcases prefix_append_cases h1 with h2 | h2
            · exact absurd h2 (not_color_prefix_color c e hc)
            · exact absurd h2 (not_color_prefix_color e c (fun he => hc he.symm)))]
    rw [ih, List.append_assoc]

theorem listReplace_ee_tail (e : ANSIColor) {L : List Char} (hL2 : ∀ c ∈ L, c ≠ ESC) :
    listReplace (L ++ (RESET ++ (ANSIColor.to_str e ++ RESET)))
        (ANSIColor.to_str e ++ ANSIColor.to_str e) (ANSIColor.to_str e)
      = L ++ (RESET ++ (ANSIColor.to_str e ++ RESET)) := by
  rw [listReplace_clean _ _ _ (ee_headq e) hL2]
  congr 1
  rw [listReplace_code (ANSIColor.to_str e ++ RESET) _ (ee_headq e) reset_ne_nil
    reset_tail_esc (by
      intro h
      rcases prefix_append_cases h with h1 | h1
      · have ha := h1.length_le
        have hb := ee_length_gt e
        have hR : RESET.length = 4 := rfl
        omega
      · rcases prefix_append_cases h1 with h2 | h2
        · exact absurd h2 (not_reset_prefix_color e)
        · exact absurd h2 (not_color_prefix_reset e))]
  congr 1
  rw [listReplace_code RESET _ (ee_headq e) (color_ne_nil e) (color_tail_esc e) (by
    intro h
    have h2 : ANSIColor.to_str e <+: RESET :=
      prefix_cancel (ANSIColor.to_str e) _ _ h
    exact absurd h2 (not_color_prefix_reset e))]
  congr 1
  exact listReplace_long RESET _ _ (by
    have := ee_length_gt e
    simpa using this)

theorem listReplace_eR_tail (e : ANSIColor) {L : List Char} (hL2 : ∀ c ∈ L, c ≠ ESC) :
    listReplace (L ++ (RESET ++ (ANSIColor.to_str e ++ RESET)))
        (ANSIColor.to_str e ++ RESET) []
      = L ++ RESET := by
  rw [listReplace_clean _ _ _ (eR_headq e) hL2]
  congr 1
  rw [listReplace_code (ANSIColor.to_str e ++ RESET) _ (eR_headq e) reset_ne_nil
    reset_tail_esc (by
      intro h
      rcases prefix_append_cases h with h1 | h1
      · have ha := h1.length_le
        have hb := eR_length_gt e
        have hR : RESET.length = 4 := rfl
        omega
      · rcases prefix_append_cases h1 with h2 | h2
        · exact absurd h2 (not_reset_prefix_color e)
        · exact absurd h2 (not_color_prefix_reset e))]
  have hmatch0 := @listReplace_match (ANSIColor.to_str e ++ RESET) [] []
    (by intro he; exact (color_ne_nil e) (List.append_eq_nil.mp he).1)
  simp only [List.append_nil, List.nil_append, listReplace_empty] at hmatch0
  rw [hmatch0, List.append_nil]

end BulletStream

namespace BulletStream

theorem wrapLine_nil (e : ANSIColor) : wrapLine (ANSIColor.to_str e) [] = [] := by
  simp only [wrapLine, listReplace_empty, List.append_nil, List.nil_append]
  rw [listReplace_code RESET _ (ee_headq e) (color_ne_nil e) (color_tail_esc e) (by
    intro h
    have h2 : ANSIColor.to_str e <+: RESET := prefix_cancel (ANSIColor.to_str e) _ _ h
    exact absurd h2 (not_color_prefix_reset e))]
  rw [listReplace_long RESET _ _ (by
    have := ee_length_gt e
    simpa using this)]
  have hmatch0 := @listReplace_match (ANSIColor.to_str e ++ RESET) [] []
    (by intro he; exact (color_ne_nil e) (List.append_eq_nil.mp he).1)
  simp only [List.append_nil, List.nil_append, listReplace_empty] at hmatch0
  exact hmatch0

theorem wrapLine_base (e : ANSIColor) (L : List Char) (hL1 : L ≠ [])
    (hL2 : ∀ c ∈ L, c ≠ ESC) :
    wrapLine (ANSIColor.to_str e) L = LineShape [e] L := by
  simp only [wrapLine]
  rw [listReplace_clean_self L _ reset_headq hL2]
  have hassoc : ANSIColor.to_str e ++ L ++ RESET
      = ANSIColor.to_str e ++ (L ++ RESET) := by simp [List.append_assoc]
  rw [hassoc]
  rw [listReplace_code (L ++ RESET) _ (ee_headq e) (color_ne_nil e) (color_tail_esc e) (by
    intro h
    have h2 := prefix_cancel (ANSIColor.to_str e) _ _ h
    exact absurd h2 (code_not_prefix_clean RESET (color_headq e) hL2 hL1))]
  rw [listReplace_clean _ _ _ (ee_headq e) hL2]
  rw [listReplace_long RESET _ _ (by
    have := ee_length_gt e
    simpa using this)]
  rw [listReplace_code (L ++ RESET) _ (eR_headq e) (color_ne_nil e) (color_tail_esc e) (by
    intro h
    have h2 := prefix_cancel (ANSIColor.to_str e) _ _ h
    exact absurd h2 (code_not_prefix_clean RESET reset_headq hL2 hL1))]
  rw [listReplace_clean _ _ _ (eR_headq e) hL2]
  rw [listReplace_long RESET _ _ (by
    have := color_length_gt e
    simp only [List.length_append]
    have hR : RESET.length = 4 := rfl
    omega)]
  simp [LineShape, catColors_cons, catColors_nil]

theorem pushColor_ne_nil (e : ANSIColor) (stack : List ANSIColor) :
    pushColor e stack ≠ [] := by
  cases stack with
  | nil => simp [pushColor]
  | cons c s' =>
    rw [pushColor]
    by_cases hc : (c :: s').head? = some e
    · rw [if_pos hc]; simp
    · rw [if_neg hc]; simp

theorem pushColor_chain (e : ANSIColor) (stack : List ANSIColor)
    (hch : List.Chain' (fun a b => a ≠ b) stack) :
    List.Chain' (fun a b => a ≠ b) (pushColor e stack) := by
  cases stack with
  | nil => simp [pushColor]
  | cons c s' =>
    rw [pushColor]
    by_cases hc : (c :: s').head? = some e
    · rw [if_pos hc]; exact hch
    · rw [if_neg hc]
      exact List.chain'_cons.mpr ⟨fun he => hc (by rw [List.head?_cons, he]), hch⟩

theorem wrapLine_shape (e : ANSIColor) (c : ANSIColor) (s' : List ANSIColor)
    (L : List Char) (hch : List.Chain' (fun a b => a ≠ b) (c :: s'))
    (hL1 : L ≠ []) (hL2 : ∀ x ∈ L, x ≠ ESC) :
    wrapLine (ANSIColor.to_str e) (LineShape (c :: s') L)
      = LineShape (pushColor e (c :: s')) L := by
  simp only [wrapLine]
  have h1 : listReplace (LineShape (c :: s') L) RESET (RESET ++ ANSIColor.to_str e)
      = catColors (c :: s') ++ (L ++ (RESET ++ ANSIColor.to_str e)) := by
    rw [LineShape, List.append_assoc]
    rw [listReplace_reset_skip_stack]
    rw [listReplace_clean _ _ _ reset_headq hL2]
    have hm := @listReplace_match RESET [] (RESET ++ ANSIColor.to_str e) reset_ne_nil
    simp only [List.append_nil, List.nil_append, listReplace_empty] at hm
    rw [hm]
  rw [h1]
  have hassoc : ANSIColor.to_str e
        ++ (catColors (c :: s') ++ (L ++ (RESET ++ ANSIColor.to_str e))) ++ RESET
      = ANSIColor.to_str e
        ++ (catColors (c :: s') ++ (L ++ (RESET ++ (ANSIColor.to_str e ++ RESET)))) := by
    simp [List.append_assoc]
  rw [hassoc]
  by_cases hc : c = e
  · subst hc
    have hsplit : ANSIColor.to_str c
          ++ (catColors (c :: s') ++ (L ++ (RESET ++ (ANSIColor.to_str c ++ RESET))))
        = (ANSIColor.to_str c ++ ANSIColor.to_str c)
          ++ (catColors s' ++ (L ++ (RESET ++ (ANSIColor.to_str c ++ RESET)))) := by
      rw [catColors_cons]
      simp [List.append_assoc]
    rw [hsplit, listReplace_match _ _ (by
      intro he
      exact color_ne_nil c (List.append_eq_nil.mp he).1)]
    rw [listReplace_ee_skip_stack c (RESET ++ (ANSIColor.to_str c ++ RESET)) hL1 hL2
      s' hch.tail]
    rw [listReplace_ee_tail c hL2]
    have hl3 : ANSIColor.to_str c
          ++ (catColors s' ++ (L ++ (RESET ++ (ANSIColor.to_str c ++ RESET))))
        = catColors (c :: s') ++ (L ++ (RESET ++ (ANSIColor.to_str c ++ RESET))) := by
      rw [catColors_cons, List.append_assoc]
    rw [hl3, listReplace_eR_skip_stack c _ hL1 hL2 (c :: s'), listReplace_eR_tail c hL2]
    have hpc : pushColor c (c :: s') = c :: s' := by
      rw [pushColor, if_pos (show (c :: s').head? = some c from rfl)]
    rw [hpc, LineShape, List.append_assoc]
  · rw [listReplace_code _ _ (ee_headq e) (color_ne_nil e) (color_tail_esc e) (by
      intro h
      have h2 := prefix_cancel (ANSIColor.to_str e) _ _ h
      rcases color_prefix_cat h2 with ⟨s'', hs⟩ | ⟨hnil, _⟩
      · have h3 := congrArg List.head? hs
        simp only [List.head?_cons] at h3
        exact hc (Option.some.inj h3)
      · exact List.noConfusion hnil)]
    rw [listReplace_ee_skip_stack e _ hL1 hL2 (c :: s') hch]
    rw [listReplace_ee_tail e hL2]
    have hl3 : ANSIColor.to_str e
          ++ (catColors (c :: s') ++ (L ++ (RESET ++ (ANSIColor.to_str e ++ RESET))))
        = catColors (e :: c :: s') ++ (L ++ (RESET ++ (ANSIColor.to_str e ++ RESET))) := by
      rw [catColors_cons (e) (c :: s'), List.append_assoc]
    rw [hl3, listReplace_eR_skip_stack e _ hL1 hL2 (e :: c :: s'),
      listReplace_eR_tail e hL2]
    have hpc : pushColor e (c :: s') = e :: c :: s' := by
      rw [pushColor, if_neg]
      intro he
      exact hc (Option.some.inj he)
    rw [hpc, LineShape, List.append_assoc]

end BulletStream

namespace BulletStream

/-! Split and join lemmas. -/

theorem splitOnNl_ne_nil (s : List Char) : splitOnNl s ≠ [] := by
  cases s with
  | nil => simp [splitOnNl]
  | cons c t =>
    by_cases hc : c = '\n'
    · simp [splitOnNl, hc]
    · simp only [splitOnNl, if_neg hc]
      cases h : splitOnNl t with
      | nil => simp
      | cons p ps => simp

theorem mem_splitOnNl_no_nl : ∀ (s : List Char) (p : List Char),
    p ∈ splitOnNl s → '\n' ∉ p := by
  intro s
  induction s with
  | nil =>
    intro p hp
    simp only [splitOnNl, List.mem_singleton] at hp
    subst hp
    simp
  | cons c t ih =>
    intro p hp
    by_cases hc : c = '\n'
    · rw [splitOnNl, if_pos hc] at hp
      rcases List.mem_cons.mp hp with rfl | hp2
      · simp
      · exact ih p hp2
    · rw [splitOnNl, if_neg hc] at hp
      cases h : splitOnNl t with
      | nil => exact absurd h (splitOnNl_ne_nil t)
      | cons q qs =>
        rw [h] at hp
        rcases List.mem_cons.mp hp with rfl | hp2
        · intro hm
          rcases List.mem_cons.mp hm with he | hm2
          · exact hc he.symm
          · exact ih q (h ▸ List.mem_cons_self q qs) hm2
        · exact ih p (h ▸ List.mem_cons_of_mem q hp2)

theorem mem_splitOnNl_subset : ∀ (s : List Char) (p : List Char),
    p ∈ splitOnNl s → ∀ x ∈ p, x ∈ s := by
  intro s
  induction s with
  | nil =>
    intro p hp
    simp only [splitOnNl, List.mem_singleton] at hp
    subst hp
    simp
  | cons c t ih =>
    intro p hp x hx
    by_cases hc : c = '\n'
    · rw [splitOnNl, if_pos hc] at hp
      rcases List.mem_cons.mp hp with rfl | hp2
      · simp at hx
      · exact List.mem_cons_of_mem c (ih p hp2 x hx)
    · rw [splitOnNl, if_neg hc] at hp
      cases h : splitOnNl t with
      | nil => exact absurd h (splitOnNl_ne_nil t)
      | cons q qs =>
        rw [h] at hp
        rcases List.mem_cons.mp hp with rfl | hp2
        · rcases List.mem_cons.mp hx with rfl | hx2
          · exact List.mem_cons_self x t
          · exact List.mem_cons_of_mem c (ih q (h ▸ List.mem_cons_self q qs) x hx2)
        · exact List.mem_cons_of_mem c (ih p (h ▸ List.mem_cons_of_mem q hp2) x hx)

theorem splitOnNl_no_nl (s : List Char) (h : '\n' ∉ s) : splitOnNl s = [s] := by
  induction s with
  | nil => rfl
  | cons c t ih =>
    have hc : ¬ c = '\n' := fun he => h (he ▸ List.mem_cons_self c t)
    rw [splitOnNl, if_neg hc, ih (fun hm => h (List.mem_cons_of_mem c hm))]

theorem joinNl_cons_cons (p q : List Char) (ps : List (List Char)) :
    joinNl (p :: q :: ps) = p ++ '\n' :: joinNl (q :: ps) := rfl

theorem joinNl_splitOnNl : ∀ s : List Char, joinNl (splitOnNl s) = s := by
  intro s
  induction s with
  | nil => rfl
  | cons c t ih =>
    by_cases hc : c = '\n'
    · rw [splitOnNl, if_pos hc]
      cases h : splitOnNl t with
      | nil => exact absurd h (splitOnNl_ne_nil t)
      | cons q qs =>
        rw [h] at ih
        rw [joinNl_cons_cons, ih, hc]
        rfl
    · rw [splitOnNl, if_neg hc]
      cases h : splitOnNl t with
      | nil => exact absurd h (splitOnNl_ne_nil t)
      | cons q qs =>
        rw [h] at ih
        cases qs with
        | nil =>
          show c :: q = c :: t
          rw [show joinNl [q] = q from rfl] at ih
          rw [ih]
        | cons q2 qs2 =>
          rw [joinNl_cons_cons] at ih ⊢
          show c :: (q ++ '\n' :: joinNl (q2 :: qs2)) = c :: t
          rw [ih]

theorem splitOnNl_append_piece (p : List Char) (hp : '\n' ∉ p) :
    ∀ (s q : List Char) (qs : List (List Char)), splitOnNl s = q :: qs →
      splitOnNl (p ++ s) = (p ++ q) :: qs := by
  induction p with
  | nil => intro s q qs h; simpa using h
  | cons a p' ih =>
    intro s q qs h
    have ha : ¬ a = '\n' := fun he => hp (he ▸ List.mem_cons_self a p')
    rw [List.cons_append, splitOnNl, if_neg ha,
      ih (fun hm => hp (List.mem_cons_of_mem a hm)) s q qs h]
    rfl

theorem splitOnNl_joinNl : ∀ ps : List (List Char), ps ≠ [] →
    (∀ p ∈ ps, '\n' ∉ p) → splitOnNl (joinNl ps) = ps := by
  intro ps
  induction ps with
  | nil => intro h; exact absurd rfl h
  | cons p ps' ih =>
    intro _ hmem
    cases ps' with
    | nil =>
      show splitOnNl (joinNl [p]) = [p]
      rw [show joinNl [p] = p from rfl]
      exact splitOnNl_no_nl p (hmem p (List.mem_cons_self p []))
    | cons q ps'' =>
      rw [joinNl_cons_cons]
      have hs : splitOnNl ('\n' :: joinNl (q :: ps'')) = [] :: (q :: ps'') := by
        rw [splitOnNl, if_pos rfl,
          ih (by simp) (fun x hx => hmem x (List.mem_cons_of_mem p hx))]
      rw [splitOnNl_append_piece p (hmem p (List.mem_cons_self p _)) _ _ _ hs,
        List.append_nil]

/-! Strip scanner lemmas. -/

theorem stripState_append (b : Bool) (x y : List Char) :
    stripState b (x ++ y) = stripState (stripState b x) y := by
  simp [stripState, List.foldl_append]

theorem stripGo_append : ∀ (x : List Char) (b : Bool) (y : List Char),
    stripGo b (x ++ y) = stripGo b x ++ stripGo (stripState b x) y := by
  intro x
  induction x with
  | nil => intro b y; simp [stripGo, stripState]
  | cons c t ih =>
    intro b y
    have hstate : stripState b (c :: t) = stripState (stripStep b c) t := by
      simp [stripState, List.foldl_cons]
    by_cases hc : c = ESC
    · have h1 : stripGo b ((c :: t) ++ y) = stripGo true (t ++ y) := by
        rw [List.cons_append, stripGo, if_pos hc]
      have h2 : stripGo b (c :: t) = stripGo true t := by
        rw [stripGo, if_pos hc]
      have h3 : stripStep b c = true := by simp [stripStep, hc]
      rw [h1, h2, hstate, h3, ih true y]
    · cases b with
      | true =>
        by_cases hm : c = 'm'
        · have hne : ('m' : Char) ≠ ESC := by decide
          have h1 : stripGo true ((c :: t) ++ y) = stripGo false (t ++ y) := by
            subst hm; simp [stripGo, hne]
          have h2 : stripGo true (c :: t) = stripGo false t := by
            subst hm; simp [stripGo, hne]
          have h3 : stripStep true c = false := by subst hm; simp [stripStep, hne]
          rw [h1, h2, hstate, h3, ih false y]
        · have h1 : stripGo true ((c :: t) ++ y) = stripGo true (t ++ y) := by
            simp [stripGo, hc, hm]
          have h2 : stripGo true (c :: t) = stripGo true t := by
            simp [stripGo, hc, hm]
          have h3 : stripStep true c = true := by simp [stripStep, hc, hm]
          rw [h1, h2, hstate, h3, ih true y]
      | false =>
        have h1 : stripGo false ((c :: t) ++ y) = c :: stripGo false (t ++ y) := by
          simp [stripGo, hc]
        have h2 : stripGo false (c :: t) = c :: stripGo false t := by
          simp [stripGo, hc]
        have h3 : stripStep false c = false := by simp [stripStep, hc]
        rw [h1, h2, hstate, h3, ih false y, List.cons_append]

theorem strip_clean_chars (L : List Char) (h : ∀ c ∈ L, c ≠ ESC) :
    stripGo false L = L ∧ stripState false L = false := by
  induction L with
  | nil => exact ⟨rfl, rfl⟩
  | cons c t ih =>
    have hc : ¬ c = ESC := h c (List.mem_cons_self c t)
    obtain ⟨ih1, ih2⟩ := ih (fun x hx => h x (List.mem_cons_of_mem c hx))
    constructor
    · rw [stripGo, if_neg hc]
      simp [ih1]
    · have : stripState false (c :: t) = stripState (stripStep false c) t := by
        simp [stripState, List.foldl_cons]
      rw [this, show stripStep false c = false by simp [stripStep, hc], ih2]

theorem strip_color_empty (a : ANSIColor) :
    stripGo false (ANSIColor.to_str a) = [] ∧ stripState false (ANSIColor.to_str a) = false := by
  cases a <;> exact ⟨by decide, by decide⟩

theorem strip_reset_empty : stripGo false RESET = [] ∧ stripState false RESET = false := by
  exact ⟨by decide, by decide⟩

theorem strip_cat (s : List ANSIColor) :
    stripGo false (catColors s) = [] ∧ stripState false (catColors s) = false := by
  induction s with
  | nil => exact ⟨rfl, rfl⟩
  | cons c s' ih =>
    rw [catColors_cons]
    constructor
    · rw [stripGo_append, (strip_color_empty c).1, (strip_color_empty c).2, ih.1]
      rfl
    · rw [stripState_append, (strip_color_empty c).2, ih.2]

theorem strip_shape (stack : List ANSIColor) (L : List Char)
    (hL2 : ∀ c ∈ L, c ≠ ESC) :
    stripGo false (LineShape stack L) = L ∧ stripState false (LineShape stack L) = false := by
  have hassoc : LineShape stack L = catColors stack ++ (L ++ RESET) := by
    rw [LineShape, List.append_assoc]
  obtain ⟨hc1, hc2⟩ := strip_cat stack
  obtain ⟨hl1, hl2⟩ := strip_clean_chars L hL2
  constructor
  · rw [hassoc, stripGo_append, hc1, hc2, stripGo_append, hl1, hl2,
      strip_reset_empty.1, List.append_nil, List.nil_append]
  · rw [hassoc, stripState_append, hc2, stripState_append, hl2, strip_reset_empty.2]

theorem strip_lineres (orig res : List Char) (hres : LineRes orig res)
    (hc : ∀ c ∈ orig, c ≠ ESC) :
    stripGo false res = orig ∧ stripState false res = false := by
  rcases hres with ⟨ho, hr⟩ | ⟨_, stack, _, _, rfl⟩
  · subst ho; subst hr; exact ⟨rfl, rfl⟩
  · exact strip_shape stack orig hc

theorem nl_not_mem_cat (s : List ANSIColor) : '\n' ∉ catColors s := by
  induction s with
  | nil => simp [catColors_nil]
  | cons c s' ih =>
    rw [catColors_cons]
    intro hm
    rcases List.mem_append.mp hm with hm | hm
    · exact nl_not_mem_color c hm
    · exact ih hm

theorem lineres_nl_free (orig res : List Char) (h : LineRes orig res)
    (ho : '\n' ∉ orig) : '\n' ∉ res := by
  rcases h with ⟨_, hr⟩ | ⟨_, stack, _, _, rfl⟩
  · subst hr; simp
  · rw [LineShape]
    intro hm
    rcases List.mem_append.mp hm with hm | hm
    · rcases List.mem_append.mp hm with hm | hm
      · exact nl_not_mem_cat stack hm
      · exact ho hm
    · exact nl_not_mem_reset hm

end BulletStream

namespace BulletStream

/-! Line-wise invariant of nested wrapping. -/

theorem lineres_first (e : ANSIColor) (p : List Char) (hp : ∀ c ∈ p, c ≠ ESC) :
    LineRes p (wrapLine (ANSIColor.to_str e) p) := by
  by_cases h : p = []
  · subst h
    exact Or.inl ⟨rfl, wrapLine_nil e⟩
  · exact Or.inr ⟨h, [e], by simp, List.chain'_singleton e,
      wrapLine_base e p h hp⟩

theorem lineres_step (e : ANSIColor) (orig res : List Char) (h : LineRes orig res)
    (hc : ∀ c ∈ orig, c ≠ ESC) : LineRes orig (wrapLine (ANSIColor.to_str e) res) := by
  rcases h with ⟨ho, hr⟩ | ⟨hne, stack, hst, hch, rfl⟩
  · subst ho; subst hr
    exact Or.inl ⟨rfl, wrapLine_nil e⟩
  · obtain ⟨c, s', rfl⟩ : ∃ c s', stack = c :: s' := by
      cases stack with
      | nil => exact absurd rfl hst
      | cons c s' => exact ⟨c, s', rfl⟩
    rw [wrapLine_shape e c s' orig hch hne hc]
    exact Or.inr ⟨hne, pushColor e (c :: s'), pushColor_ne_nil e _,
      pushColor_chain e _ hch, rfl⟩

theorem forall2_wrapLine_first (e : ANSIColor) :
    ∀ lines : List (List Char), (∀ p ∈ lines, ∀ c ∈ p, c ≠ ESC) →
      List.Forall₂ LineRes lines (lines.map (wrapLine (ANSIColor.to_str e))) := by
  intro lines
  induction lines with
  | nil => intro _; exact List.Forall₂.nil
  | cons p ps ih =>
    intro h
    exact List.Forall₂.cons (lineres_first e p (h p (List.mem_cons_self p ps)))
      (ih (fun q hq => h q (List.mem_cons_of_mem p hq)))

theorem forall2_wrapLine_step (e : ANSIColor) :
    ∀ (origs rs : List (List Char)), (∀ p ∈ origs, ∀ c ∈ p, c ≠ ESC) →
      List.Forall₂ LineRes origs rs →
      List.Forall₂ LineRes origs (rs.map (wrapLine (ANSIColor.to_str e))) := by
  intro origs rs hcl hfa
  induction hfa with
  | nil => exact List.Forall₂.nil
  | cons h1 h2 ih =>
    rename_i a b l1 l2
    exact List.Forall₂.cons
      (lineres_step e a b h1 (hcl a (List.mem_cons_self a l1)))
      (ih (fun q hq => hcl q (List.mem_cons_of_mem a hq)))

theorem forall2_right_mem {R : List Char → List Char → Prop} :
    ∀ {l1 l2 : List (List Char)}, List.Forall₂ R l1 l2 →
      ∀ b ∈ l2, ∃ a ∈ l1, R a b := by
  intro l1 l2 h
  induction h with
  | nil => intro b hb; simp at hb
  | cons h1 h2 ih =>
    rename_i a b l1' l2'
    intro x hx
    rcases List.mem_cons.mp hx with rfl | hx2
    · exact ⟨a, List.mem_cons_self a l1', h1⟩
    · obtain ⟨a', ha', hr⟩ := ih x hx2
      exact ⟨a', List.mem_cons_of_mem a ha', hr⟩

theorem forall2_strip :
    ∀ (origs rs : List (List Char)), (∀ p ∈ origs, ∀ c ∈ p, c ≠ ESC) →
      List.Forall₂ LineRes origs rs →
      List.Forall₂ (fun o r => stripGo false r = o ∧ stripState false r = false) origs rs := by
  intro origs rs hcl hfa
  induction hfa with
  | nil => exact List.Forall₂.nil
  | cons h1 h2 ih =>
    rename_i a b l1 l2
    exact List.Forall₂.cons
      (strip_lineres a b h1 (hcl a (List.mem_cons_self a l1)))
      (ih (fun q hq => hcl q (List.mem_cons_of_mem a hq)))

theorem strip_joinNl :
    ∀ (origs rs : List (List Char)),
      List.Forall₂ (fun o r => stripGo false r = o ∧ stripState false r = false) origs rs →
      stripGo false (joinNl rs) = joinNl origs := by
  intro origs rs hfa
  induction hfa with
  | nil => rfl
  | cons h1 h2 ih =>
    rename_i o r os rs'
    cases h2 with
    | nil =>
      show stripGo false (joinNl [r]) = joinNl [o]
      rw [show joinNl [r] = r from rfl, show joinNl [o] = o from rfl]
      exact h1.1
    | cons h3 h4 =>
      rename_i o2 r2 os2 rs2
      rw [joinNl_cons_cons, joinNl_cons_cons, stripGo_append, h1.1, h1.2]
      have hnle : ('\n' : Char) ≠ ESC := by decide
      have : stripGo false ('\n' :: joinNl (r2 :: rs2))
          = '\n' :: stripGo false (joinNl (r2 :: rs2)) := by
        simp [stripGo, hnle]
      rw [this, ih]

theorem wrapMany_lines :
    ∀ (cs : List ANSIColor) (t : List Char), cs ≠ [] → EscFree t →
      ∃ rs, wrapMany cs t = joinNl rs ∧ List.Forall₂ LineRes (splitOnNl t) rs := by
  intro cs
  induction cs with
  | nil => intro t h; exact absurd rfl h
  | cons a cs' ih =>
    intro t _ ht
    have hlines_clean : ∀ p ∈ splitOnNl t, ∀ c ∈ p, c ≠ ESC :=
      fun p hp c hc => ht c (mem_splitOnNl_subset t p hp c hc)
    by_cases hcs : cs' = []
    · subst hcs
      exact ⟨(splitOnNl t).map (wrapLine (ANSIColor.to_str a)), rfl,
        forall2_wrapLine_first a _ hlines_clean⟩
    · obtain ⟨rs', hw', hfa'⟩ := ih t hcs ht
      have hrs_ne : rs' ≠ [] := by
        intro he
        have hlen := hfa'.length_eq
        rw [he] at hlen
        exact splitOnNl_ne_nil t (List.length_eq_zero.mp hlen)
      have hnl_rs : ∀ r ∈ rs', '\n' ∉ r := by
        intro r hr
        obtain ⟨o, ho, hres⟩ := forall2_right_mem hfa' r hr
        exact lineres_nl_free o r hres (mem_splitOnNl_no_nl t o ho)
      refine ⟨rs'.map (wrapLine (ANSIColor.to_str a)), ?_,
        forall2_wrapLine_step a _ _ hlines_clean hfa'⟩
      show wrap_ansi_escape_each_line a (wrapMany cs' t) = _
      rw [hw', wrap_ansi_escape_each_line, splitOnNl_joinNl rs' hrs_ne hnl_rs]

/-- C3: for every text containing no ESC character and every non-empty list of
nesting colors, `strip_ansi` applied to the nested applications of
`wrap_ansi_escape_each_line` returns the original text exactly. -/
theorem strip_ansi_wrap_nested (cs : List ANSIColor) (t : List Char)
    (hcs : cs ≠ []) (ht : EscFree t) :
    strip_ansi (wrapMany cs t) = t := by
  obtain ⟨rs, hw, hfa⟩ := wrapMany_lines cs t hcs ht
  have hclean : ∀ p ∈ splitOnNl t, ∀ c ∈ p, c ≠ ESC :=
    fun p hp c hc => ht c (mem_splitOnNl_subset t p hp c hc)
  rw [hw, strip_ansi, strip_joinNl _ _ (forall2_strip _ _ hclean hfa),
    joinNl_splitOnNl]

theorem strip_ansi_wrap_nested_witness :
    (([ANSIColor.red, ANSIColor.boldCyan] : List ANSIColor) ≠ []
      ∧ EscFree "hi\nthere".toList)
    ∧ strip_ansi (wrapMany [ANSIColor.red, ANSIColor.boldCyan] "hi\nthere".toList)
        = "hi\nthere".toList :=
  ⟨⟨by decide, by simp only [EscFree]; decide⟩,
   strip_ansi_wrap_nested [ANSIColor.red, ANSIColor.boldCyan] "hi\nthere".toList
     (by decide) (by simp only [EscFree]; decide)⟩

end BulletStream

namespace BulletStream

/-! Trailing newline run lemmas over character sinks. -/

theorem trailingNlRun_snoc (s : List Char) (c : Char) :
    trailingNlRun (s ++ [c]) = if c = '\n' then trailingNlRun s + 1 else 0 := by
  rw [trailingNlRun, List.reverse_append]
  by_cases hc : c = '\n'
  · simp [List.takeWhile_cons, hc, trailingNlRun]
  · simp [List.takeWhile_cons, hc]

theorem trailingNlRun_append_last (a X : List Char) (x : Char)
    (hX : X.getLast? = some x) (hx : x ≠ '\n') : trailingNlRun (a ++ X) = 0 := by
  rcases List.eq_nil_or_concat X with rfl | ⟨X', y, rfl⟩
  · simp at hX
  · simp only [List.concat_eq_append, List.getLast?_concat] at hX
    have hy : y = x := Option.some.inj hX
    rw [List.concat_eq_append, show a ++ (X' ++ [y]) = (a ++ X') ++ [y] by simp,
      trailingNlRun_snoc, if_neg (by rw [hy]; exact hx)]

theorem trailingNlRun_nil : trailingNlRun [] = 0 := rfl

/-! Facts about trimmed text and the rendered header chunk. -/

theorem trim_subset (s : List Char) : ∀ x ∈ trimChars s, x ∈ s := by
  intro x hx
  rw [trimChars] at hx
  have h1 := List.mem_reverse.mp hx
  have h2 := (List.dropWhile_sublist _).subset h1
  have h3 := List.mem_reverse.mp h2
  exact (List.dropWhile_sublist _).subset h3

theorem head?_dropWhile (p : Char → Bool) :
    ∀ (l : List Char) (c : Char), (l.dropWhile p).head? = some c → p c = false := by
  intro l
  induction l with
  | nil => intro c h; simp [List.dropWhile] at h
  | cons a t ih =>
    intro c h
    by_cases ha : p a = true
    · rw [List.dropWhile_cons, if_pos ha] at h
      exact ih c h
    · rw [List.dropWhile_cons, if_neg ha] at h
      rw [List.head?_cons] at h
      rw [← Option.some.inj h]
      exact Bool.eq_false_iff.mpr ha

theorem trim_getLast_not_ws (s : List Char) (lc : Char)
    (h : (trimChars s).getLast? = some lc) : isWs lc = false := by
  rw [trimChars, List.getLast?_reverse] at h
  exact head?_dropWhile isWs _ lc h

theorem splitOnNl_getLast_ne_nil :
    ∀ (z : List Char), z ≠ [] → z.getLast? ≠ some '\n' →
      ∀ lp, (splitOnNl z).getLast? = some lp → lp ≠ [] := by
  intro z
  induction z with
  | nil => intro h; exact absurd rfl h
  | cons c t ih =>
    intro _ hlast lp hlp
    cases t with
    | nil =>
      have hc : c ≠ '\n' := by
        intro he
        exact hlast (by rw [he]; rfl)
      rw [splitOnNl, if_neg hc] at hlp
      rw [show splitOnNl [] = [[]] from rfl] at hlp
      simp at hlp
      rw [← hlp]
      simp
    | cons d t' =>
      have hlast' : (d :: t').getLast? ≠ some '\n' := by
        rwa [List.getLast?_cons_cons] at hlast
      by_cases hc : c = '\n'
      · rw [splitOnNl, if_pos hc] at hlp
        cases hsp : splitOnNl (d :: t') with
        | nil => exact absurd hsp (splitOnNl_ne_nil _)
        | cons q qs =>
          rw [hsp] at hlp
          rw [List.getLast?_cons_cons] at hlp
          exact ih (by simp) hlast' lp (by rw [hsp]; exact hlp)
      · rw [splitOnNl, if_neg hc] at hlp
        cases hsp : splitOnNl (d :: t') with
        | nil => exact absurd hsp (splitOnNl_ne_nil _)
        | cons q qs =>
          rw [hsp] at hlp
          cases qs with
          | nil =>
            simp at hlp
            rw [← hlp]
            simp
          | cons q2 qs2 =>
            rw [List.getLast?_cons_cons] at hlp
            exact ih (by simp) hlast' lp (by
              rw [hsp, List.getLast?_cons_cons]
              exact hlp)

theorem LineShape_ne_nil (c : ANSIColor) (s' : List ANSIColor) (L : List Char) :
    LineShape (c :: s') L ≠ [] := by
  rw [LineShape, catColors_cons]
  simp [color_ne_nil c]

theorem LineShape_headq (c : ANSIColor) (s' : List ANSIColor) (L : List Char) :
    (LineShape (c :: s') L).head? = some ESC := by
  rw [LineShape, catColors_cons]
  rw [show ANSIColor.to_str c ++ catColors s' ++ L ++ RESET
    = ANSIColor.to_str c ++ (catColors s' ++ L ++ RESET) by simp,
    head?_append_left _ (color_ne_nil c)]
  exact color_headq c

theorem LineShape_getLastq (stack : List ANSIColor) (L : List Char) :
    (LineShape stack L).getLast? = some 'm' := by
  rw [LineShape, List.getLast?_append]
  rfl

theorem joinNl_headq (r0 : List Char) (rest : List (List Char)) (h : r0 ≠ []) :
    (joinNl (r0 :: rest)).head? = r0.head? := by
  cases rest with
  | nil => rfl
  | cons q ps =>
    rw [joinNl_cons_cons, head?_append_left _ h]

theorem joinNl_getLastq :
    ∀ (ps : List (List Char)) (lp : List Char), ps.getLast? = some lp → lp ≠ [] →
      (joinNl ps).getLast? = lp.getLast? := by
  intro ps
  induction ps with
  | nil => intro lp h; simp at h
  | cons p ps' ih =>
    intro lp h hlp
    cases ps' with
    | nil =>
      simp at h
      rw [show joinNl [p] = p from rfl, h]
    | cons q ps'' =>
      rw [List.getLast?_cons_cons] at h
      have hJ := ih lp h hlp
      have hJne : joinNl (q :: ps'') ≠ [] := by
        intro he
        rw [he] at hJ
        rw [List.getLast?_eq_none_iff.mpr rfl] at hJ
        exact hlp (by
          cases hlpe : lp.getLast? with
          | none => exact List.getLast?_eq_none_iff.mp hlpe
          | some x => rw [hlpe] at hJ; cases hJ)
      rw [joinNl_cons_cons, List.getLast?_append]
      have : ('\n' :: joinNl (q :: ps'')).getLast? = lp.getLast? := by
        cases hJe : joinNl (q :: ps'') with
        | nil => exact absurd hJe hJne
        | cons j js =>
          rw [List.getLast?_cons_cons, ← hJe]
          exact hJ
      rw [this]
      cases hlpe : lp.getLast? with
      | none => exact absurd (List.getLast?_eq_none_iff.mp hlpe) hlp
      | some x => rfl

end BulletStream

namespace BulletStream

theorem h2X_facts (s : List Char) (hs : EscFree s) :
    h2X s ≠ [] ∧ (h2X s).head? = some ESC ∧ (h2X s).getLast? = some 'm' := by
  have hclean_z : ∀ c ∈ ("## ".toList ++ trimChars s), c ≠ ESC := by
    intro c hc
    rcases List.mem_append.mp hc with hc | hc
    · have hdd : ∀ x ∈ "## ".toList, x ≠ ESC := by decide
      exact hdd c hc
    · exact hs c (trim_subset s c hc)
  have hz_ne : ("## ".toList ++ trimChars s) ≠ [] := by simp
  have hz_last : ("## ".toList ++ trimChars s).getLast? ≠ some '\n' := by
    rw [List.getLast?_append]
    cases ht : (trimChars s).getLast? with
    | none =>
      simp only [ht, Option.none_or]
      decide
    | some lc =>
      have hlc := trim_getLast_not_ws s lc ht
      intro he
      have he2 : some lc = some '\n' := he
      have : lc = '\n' := Option.some.inj he2
      rw [this] at hlc
      exact absurd hlc (by decide)
  obtain ⟨q, qs, hq⟩ : ∃ q qs, splitOnNl (trimChars s) = q :: qs := by
    cases h : splitOnNl (trimChars s) with
    | nil => exact absurd h (splitOnNl_ne_nil _)
    | cons q qs => exact ⟨q, qs, rfl⟩
  have hsplit : splitOnNl ("## ".toList ++ trimChars s) = ("## ".toList ++ q) :: qs :=
    splitOnNl_append_piece "## ".toList (by decide) _ q qs hq
  have hl0_ne : ("## ".toList ++ q) ≠ [] := by simp
  have hl0_clean : ∀ c ∈ ("## ".toList ++ q), c ≠ ESC := by
    intro c hc
    apply hclean_z
    rcases List.mem_append.mp hc with hc | hc
    · exact List.mem_append.mpr (Or.inl hc)
    · exact List.mem_append.mpr (Or.inr (mem_splitOnNl_subset _ q (hq ▸
        List.mem_cons_self q qs) c hc))
  have hXdef : h2X s = joinNl ((splitOnNl ("## ".toList ++ trimChars s)).map
      (wrapLine (ANSIColor.to_str ANSIColor.boldPurple))) := rfl
  have hw0 : wrapLine (ANSIColor.to_str ANSIColor.boldPurple) ("## ".toList ++ q)
      = LineShape [ANSIColor.boldPurple] ("## ".toList ++ q) :=
    wrapLine_base ANSIColor.boldPurple _ hl0_ne hl0_clean
  obtain ⟨lpz, hlpz⟩ : ∃ lpz,
      (splitOnNl ("## ".toList ++ trimChars s)).getLast? = some lpz := by
    rw [hsplit]
    cases hgl : (("## ".toList ++ q) :: qs).getLast? with
    | none => exact absurd (List.getLast?_eq_none_iff.mp hgl) (by simp)
    | some lp => exact ⟨lp, rfl⟩
  have hlpz_ne : lpz ≠ [] := splitOnNl_getLast_ne_nil _ hz_ne hz_last lpz hlpz
  have hlpz_mem : lpz ∈ splitOnNl ("## ".toList ++ trimChars s) := by
    rcases List.eq_nil_or_concat (splitOnNl ("## ".toList ++ trimChars s)) with
      he | ⟨front, lp2, he⟩
    · exact absurd he (splitOnNl_ne_nil _)
    · rw [he]
      rw [he, List.concat_eq_append, List.getLast?_concat] at hlpz
      rw [List.concat_eq_append]
      exact List.mem_append.mpr (Or.inr (by
        rw [Option.some.inj hlpz]
        exact List.mem_singleton.mpr rfl))
  have hlpz_clean : ∀ c ∈ lpz, c ≠ ESC := by
    intro c hc
    exact hclean_z c (mem_splitOnNl_subset _ lpz hlpz_mem c hc)
  have hwlpz : wrapLine (ANSIColor.to_str ANSIColor.boldPurple) lpz
      = LineShape [ANSIColor.boldPurple] lpz :=
    wrapLine_base ANSIColor.boldPurple lpz hlpz_ne hlpz_clean
  have hmap_last : ((splitOnNl ("## ".toList ++ trimChars s)).map
      (wrapLine (ANSIColor.to_str ANSIColor.boldPurple))).getLast?
      = some (LineShape [ANSIColor.boldPurple] lpz) := by
    rw [List.getLast?_map, hlpz]
    simp [hwlpz]
  refine ⟨?_, ?_, ?_⟩
  · rw [hXdef, hsplit]
    simp only [List.map_cons]
    rw [hw0]
    cases hmm : qs.map (wrapLine (ANSIColor.to_str ANSIColor.boldPurple)) with
    | nil =>
      show joinNl [LineShape [ANSIColor.boldPurple] _] ≠ []
      rw [show joinNl [LineShape [ANSIColor.boldPurple] ("## ".toList ++ q)]
        = LineShape [ANSIColor.boldPurple] ("## ".toList ++ q) from rfl]
      exact LineShape_ne_nil _ _ _
    | cons w ws =>
      rw [joinNl_cons_cons]
      intro he
      exact LineShape_ne_nil ANSIColor.boldPurple [] ("## ".toList ++ q)
        (List.append_eq_nil.mp he).1
  · rw [hXdef, hsplit]
    simp only [List.map_cons]
    rw [hw0, joinNl_headq _ _ (LineShape_ne_nil _ _ _)]
    exact LineShape_headq _ _ _
  · rw [hXdef,
      joinNl_getLastq _ _ hmap_last (LineShape_ne_nil _ _ _)]
    exact LineShape_getLastq _ _

theorem h2_emit (curr s : List Char) (hs : EscFree s) :
    h2 curr s = curr ++ (if trailingNlRun curr > 1 then [] else ['\n'])
      ++ h2X s ++ ['\n', '\n'] := by
  obtain ⟨hne, hhead, hlast⟩ := h2X_facts s hs
  have hm : ('m' : Char) ≠ '\n' := by decide
  by_cases hcur : trailingNlRun curr > 1
  · have hrun : trailingNlRun (curr ++ h2X s ++ ['\n']) = 1 := by
      rw [trailingNlRun_snoc, if_pos rfl,
        trailingNlRun_append_last curr _ 'm' hlast hm]
    simp only [h2, if_pos hcur]
    rw [if_neg (by rw [hrun]; decide)]
    simp [List.append_assoc]
  · have hrun : trailingNlRun ((curr ++ ['\n']) ++ h2X s ++ ['\n']) = 1 := by
      rw [trailingNlRun_snoc, if_pos rfl,
        trailingNlRun_append_last (curr ++ ['\n']) _ 'm' hlast hm]
    simp only [h2, if_neg hcur]
    rw [if_neg (by rw [hrun]; decide)]
    simp [List.append_assoc]

/-- C5 counterexample: the claim as stated fails on the code in two ways.  First,
when the sink ends mid-line (content `"abc"`), the emitted single newline merely
terminates the line, so no blank line precedes the header even though the sink
was not at a paragraph boundary.  Second, for header text containing a raw ANSI
reset sequence, the rendered header chunk itself ends in a newline, so two
consecutive headers are separated by more than one blank line. -/
theorem headers_one_blank_claim_false :
    (¬ headersOneBlankClaim)
    ∧ (h2X ('x' :: '\n' :: RESET)).getLast? = some '\n' := by
  constructor
  · intro h
    have h5 := (h "abc".toList "A".toList "B".toList).2.2.2.2.2 (by decide)
    rcases h5 with ⟨honly, _⟩ | ⟨_, hrun⟩
    · have := honly 'a' (by decide)
      exact absurd this (by decide)
    · exact absurd hrun (by decide)
  · decide

/-- C5 (amended): for consecutive `h2` emissions whose header texts contain no
ESC byte, the output is the first sink content, a single separating newline
exactly when the sink is not already at a paragraph boundary, the first
rendered header, exactly one blank line, the second rendered header, and
exactly one blank line; the rendered headers are non-empty and neither start
nor end with a newline.  A header is preceded by exactly one blank line when
the sink ends with a single newline after other content, or is empty; a sink
ending mid-line gets a bare line terminator, and a sink already at a paragraph
boundary gets nothing. -/
theorem h2_pair_spec (curr s1 s2 : List Char) (h1 : EscFree s1) (h2e : EscFree s2) :
    h2 (h2 curr s1) s2
      = curr ++ (if trailingNlRun curr > 1 then [] else ['\n'])
          ++ h2X s1 ++ ['\n', '\n'] ++ h2X s2 ++ ['\n', '\n']
    ∧ h2X s1 ≠ [] ∧ (h2X s1).head? = some ESC ∧ (h2X s1).getLast? = some 'm'
    ∧ h2X s2 ≠ [] ∧ (h2X s2).head? = some ESC ∧ (h2X s2).getLast? = some 'm'
    ∧ ((¬ onlyNl curr ∧ trailingNlRun curr = 1) ∨ curr = [] →
        oneBlankBefore (curr ++ ['\n'])) := by
  obtain ⟨hne1, hhead1, hlast1⟩ := h2X_facts s1 h1
  obtain ⟨hne2, hhead2, hlast2⟩ := h2X_facts s2 h2e
  have hm : ('m' : Char) ≠ '\n' := by decide
  have hrun1 : trailingNlRun (h2 curr s1) = 2 := by
    rw [h2_emit curr s1 h1]
    rw [show curr ++ (if trailingNlRun curr > 1 then [] else ['\n'])
          ++ h2X s1 ++ ['\n', '\n']
        = ((curr ++ (if trailingNlRun curr > 1 then [] else ['\n']) ++ h2X s1)
            ++ ['\n']) ++ ['\n'] by simp]
    rw [trailingNlRun_snoc, if_pos rfl, trailingNlRun_snoc, if_pos rfl,
      trailingNlRun_append_last _ _ 'm' hlast1 hm]
  refine ⟨?_, hne1, hhead1, hlast1, hne2, hhead2, hlast2, ?_⟩
  · rw [h2_emit (h2 curr s1) s2 h2e, hrun1]
    rw [if_pos (by decide : (2:Nat) > 1), h2_emit curr s1 h1]
    simp [List.append_assoc]
  · intro hcase
    rcases hcase with ⟨hnl, hrun⟩ | rfl
    · refine Or.inr ⟨?_, ?_⟩
      · intro hall
        exact hnl (fun c hc => hall c (List.mem_append.mpr (Or.inl hc)))
      · rw [trailingNlRun_snoc, if_pos rfl, hrun]
    · exact Or.inl ⟨by intro c hc; simpa using hc, rfl⟩

theorem h2_pair_spec_witness :
    (EscFree "Alpha".toList ∧ EscFree "Beta".toList)
    ∧ (h2 (h2 "x\n".toList "Alpha".toList) "Beta".toList
        = "x\n".toList ++ (if trailingNlRun "x\n".toList > 1 then [] else ['\n'])
            ++ h2X "Alpha".toList ++ ['\n', '\n'] ++ h2X "Beta".toList ++ ['\n', '\n'])
    ∧ oneBlankBefore ("x\n".toList ++ ['\n']) :=
  ⟨⟨by simp only [EscFree]; decide, by simp only [EscFree]; decide⟩,
   (h2_pair_spec "x\n".toList "Alpha".toList "Beta".toList
      (by simp only [EscFree]; decide) (by simp only [EscFree]; decide)).1,
   (h2_pair_spec "x\n".toList "Alpha".toList "Beta".toList
      (by simp only [EscFree]; decide) (by simp only [EscFree]; decide)).2.2.2.2.2.2.2
     (Or.inl ⟨by intro hall; exact absurd (hall 'x' (by decide)) (by decide),
       by decide⟩)⟩

end BulletStream
